import Mathlib

/-!
Verification of the CV-Analyzer repository: a shallow embedding, in Lean 4, of
the string-matching algorithms (engine/algorithms.py), the analysis engine
(engine/analyzer.py) and the PDF extractor (extractors/pdf_extractor.py),
together with theorems settling the specification claims about them.

Python strings are modelled as lists of characters, Python ints as Int/Nat
(Python integers are unbounded, so no wrap-around modelling is needed), Python
floats as rationals, and raised exceptions as Except values.  Wall-clock
readings are passed in as explicit parameters where a claim depends on them.
-/

namespace CVA

/-! ### Strings: lowercasing and stripping (Python str.lower / str.strip) -/

/-- Python str.lower applied to a text, one character at a time. -/
def pyLower (s : List Char) : List Char := s.map Char.toLower

/-- Case normalisation shared by all three algorithms (algorithms.py lines
61-63, 126-128, 216-218): lowercase both text and pattern unless
case-sensitive search was requested. -/
def caseNorm (case_sensitive : Bool) (s : List Char) : List Char :=
  if case_sensitive then s else pyLower s

/-- Python-style character indexing s[i], defaulting out of range (every use
backed by a claim is shown in range). -/
def ch (s : List Char) (i : Nat) : Char := s.getD i default

/-- Python str.strip: remove leading and trailing whitespace. -/
def pyStrip (s : List Char) : List Char :=
  ((s.dropWhile Char.isWhitespace).reverse.dropWhile Char.isWhitespace).reverse

/-! ### SearchResult (algorithms.py lines 19-27)

The execution_time field is wall-clock time and is not part of the model;
all other fields are kept. -/

structure SearchResult where
  matches' : List Nat
  comparisons : Nat
  algorithm_name : String
  pattern_length : Nat
  text_length : Nat
deriving DecidableEq

/-- Length of the run of equal characters at the front of two lists: the
number of successful comparisons made by the inner verification loop
"while j < m and text[i + j] == pattern[j]" of the Brute Force and
Rabin-Karp searches. -/
def commonPrefixLen : List Char → List Char → Nat
  | a :: as, b :: bs => if a = b then commonPrefixLen as bs + 1 else 0
  | _, _ => 0

/-- One iteration of the Brute Force main loop (algorithms.py lines 82-95)
at start offset i, acting on the accumulated (matches, comparisons). -/
def bfStep (t p : List Char) (acc : List Nat × Nat) (i : Nat) : List Nat × Nat :=
  let j := commonPrefixLen (t.drop i) p
  (if j = p.length then acc.1 ++ [i] else acc.1,
   acc.2 + j + (if j < p.length then 1 else 0))

/-- Embeds brute_force_search (algorithms.py lines 43-106). -/
def brute_force_search (text pat : List Char) (case_sensitive : Bool) : SearchResult :=
  let t := caseNorm case_sensitive text
  let p := caseNorm case_sensitive pat
  let n := t.length
  let m := p.length
  if m > n then
    { matches' := [], comparisons := 0, algorithm_name := "Brute Force",
      pattern_length := m, text_length := n }
  else
    let r := (List.range (n - m + 1)).foldl (bfStep t p) ([], 0)
    { matches' := r.1, comparisons := r.2, algorithm_name := "Brute Force",
      pattern_length := m, text_length := n }

/-! ### Rabin-Karp (algorithms.py lines 108-196)

The Python integers involved can go negative before the modulus is taken, so
the hash arithmetic is modelled on Int; Python's % on a positive modulus and
Lean's Int.emod agree (both yield a result in [0, modulus)). -/

/-- ord of a character, as used by the hash computations. -/
def ordc (c : Char) : Int := (c.toNat : Int)

/-- The initial-hash loop (algorithms.py lines 156-159): Horner's rule with
base 256, reducing modulo the prime 101 at every step. -/
def hornerHash (w : List Char) : Int :=
  w.foldl (fun acc c => (256 * acc + ordc c) % 101) 0

/-- The h = base^(m-1) mod prime loop (algorithms.py lines 152-154). -/
def rkH (m : Nat) : Int :=
  (List.range (m - 1)).foldl (fun h _ => (h * 256) % 101) 1

/-- The next-window hash update (algorithms.py lines 180-185), including the
renormalisation branch for a negative hash. -/
def rkNext (t : List Char) (m i : Nat) (text_hash : Int) : Int :=
  let nh := (256 * (text_hash - ordc (ch t i) * rkH m)
              + ordc (ch t (i + m))) % 101
  if nh < 0 then nh + 101 else nh

/-- The rolling text hash in front of window position i: position 0 carries
the initial Horner hash of the first window, and each later position is
obtained by the rkNext update. -/
def rkHashAt (t : List Char) (m : Nat) : Nat → Int
  | 0 => hornerHash (t.take m)
  | i + 1 => rkNext t m i (rkHashAt t m i)

/-- One iteration of the Rabin-Karp main loop (algorithms.py lines 162-185)
at window position i, acting on (matches, comparisons, text_hash). -/
def rkStep (t p : List Char) (pattern_hash : Int) (n m : Nat)
    (acc : List Nat × Nat × Int) (i : Nat) : List Nat × Nat × Int :=
  let ms := acc.1
  let cs := acc.2.1
  let th := acc.2.2
  let verified : List Nat × Nat :=
    if pattern_hash = th then
      let j := commonPrefixLen (t.drop i) p
      (if j = m then ms ++ [i] else ms, cs + j + (if j < m then 1 else 0))
    else (ms, cs)
  (verified.1, verified.2, if i < n - m then rkNext t m i th else th)

/-- Embeds rabin_karp_search (algorithms.py lines 108-196). -/
def rabin_karp_search (text pat : List Char) (case_sensitive : Bool) : SearchResult :=
  let t := caseNorm case_sensitive text
  let p := caseNorm case_sensitive pat
  let n := t.length
  let m := p.length
  if m > n then
    { matches' := [], comparisons := 0, algorithm_name := "Rabin-Karp",
      pattern_length := m, text_length := n }
  else
    let pattern_hash := hornerHash p
    let text_hash := hornerHash (t.take m)
    let r := (List.range (n - m + 1)).foldl (rkStep t p pattern_hash n m) ([], 0, text_hash)
    { matches' := r.1, comparisons := r.2.1, algorithm_name := "Rabin-Karp",
      pattern_length := m, text_length := n }

/-! ### KMP (algorithms.py lines 198-299)

Both while loops are modelled with an explicit fuel argument; the correctness
proofs show that the fuel supplied by the entry points is never exhausted. -/

/-- The while loop of _build_failure_function (algorithms.py lines 287-297),
with state (lps, length, i). -/
def lpsFuel (p : List Char) : Nat → List Nat → Nat → Nat → List Nat
  | 0, lps, _, _ => lps
  | fuel + 1, lps, len, i =>
    if i < p.length then
      if ch p i = ch p len then
        lpsFuel p fuel (lps.set i (len + 1)) (len + 1) (i + 1)
      else if len ≠ 0 then
        lpsFuel p fuel lps (lps.getD (len - 1) 0) i
      else
        lpsFuel p fuel (lps.set i 0) len (i + 1)
    else lps

/-- Embeds _build_failure_function (algorithms.py lines 269-299): lps is
initialised to m zeroes, length to 0, i to 1. -/
def build_failure_function (p : List Char) : List Nat :=
  lpsFuel p (2 * p.length + 1) (List.replicate p.length 0) 0 1

/-- The while loop of kmp_search (algorithms.py lines 242-256), with state
(i, j, matches, comparisons). -/
def kmpLoop (t p : List Char) (lps : List Nat) :
    Nat → Nat → Nat → List Nat → Nat → List Nat × Nat
  | 0, _, _, ms, cs => (ms, cs)
  | fuel + 1, i, j, ms, cs =>
    if i < t.length then
      let step : Nat × Nat × Nat :=
        if ch t i = ch p j then (i + 1, j + 1, cs + 1) else (i, j, cs)
      let i' := step.1
      let j' := step.2.1
      let cs' := step.2.2
      if j' = p.length then
        kmpLoop t p lps fuel i' (lps.getD (j' - 1) 0) (ms ++ [i' - j']) cs'
      else if i' < t.length ∧ ch t i' ≠ ch p j' then
        if j' ≠ 0 then kmpLoop t p lps fuel i' (lps.getD (j' - 1) 0) ms (cs' + 1)
        else kmpLoop t p lps fuel (i' + 1) j' ms (cs' + 1)
      else kmpLoop t p lps fuel i' j' ms cs'
    else (ms, cs)

/-- Embeds kmp_search (algorithms.py lines 198-267). -/
def kmp_search (text pat : List Char) (case_sensitive : Bool) : SearchResult :=
  let t := caseNorm case_sensitive text
  let p := caseNorm case_sensitive pat
  let n := t.length
  let m := p.length
  if m > n then
    { matches' := [], comparisons := 0, algorithm_name := "KMP",
      pattern_length := m, text_length := n }
  else
    let lps := build_failure_function p
    let r := kmpLoop t p lps (2 * n + 1) 0 0 [] 0
    { matches' := r.1, comparisons := r.2, algorithm_name := "KMP",
      pattern_length := m, text_length := n }

/-- Whether the pattern p occurs in t starting at position s (used to state
what the match lists of all three algorithms contain). -/
def matchAtB (t p : List Char) (s : Nat) : Bool :=
  (t.drop s).take p.length == p

/-! ### Analysis engine (engine/analyzer.py)

AnalysisResult keeps every field of the Python dataclass except the two
wall-clock fields execution_time and timestamp, which are not modelled.
Python floats are modelled as rationals. -/

structure AnalysisResult where
  cv_filename : String
  job_description : String
  algorithm_used : String
  matched_keywords : List (List Char)
  missing_keywords : List (List Char)
  relevance_score : ℚ
  comparison_count : Nat
  total_keywords : Nat
deriving DecidableEq

/-- Embeds _calculate_relevance_score (analyzer.py lines 316-340). -/
def calculate_relevance_score (matched_keywords total_keywords : List (List Char)) : ℚ :=
  if total_keywords = [] then 0
  else
    let base_score : ℚ := (matched_keywords.length : ℚ) / (total_keywords.length : ℚ)
    let base_score :=
      if 0 < matched_keywords.length then
        base_score + min (1 / 10) ((matched_keywords.length : ℚ) * (1 / 100))
      else base_score
    min 1 base_score

/-- The algorithm dispatch of analyze_cv (analyzer.py lines 120-128): pick
the search routine by name, raising ValueError (modelled as Except.error) on
an unknown name. -/
def selectSearch (algorithm : String) (cv_text keyword : List Char)
    (case_sensitive : Bool) : Except String SearchResult :=
  if algorithm = "Brute Force" then
    .ok (brute_force_search cv_text keyword case_sensitive)
  else if algorithm = "Rabin-Karp" then
    .ok (rabin_karp_search cv_text keyword case_sensitive)
  else if algorithm = "KMP" then
    .ok (kmp_search cv_text keyword case_sensitive)
  else
    .error ("Unknown algorithm: " ++ algorithm)

/-- The body of the per-keyword loop of analyze_cv (analyzer.py lines
115-137), acting on (matched_keywords, missing_keywords, total_comparisons). -/
def analyzeKeywordStep (cv_text : List Char) (algorithm : String) (case_sensitive : Bool)
    (acc : List (List Char) × List (List Char) × Nat) (keyword : List Char) :
    Except String (List (List Char) × List (List Char) × Nat) :=
  let keyword := pyStrip keyword
  if keyword = [] then
    .ok acc
  else
    match selectSearch algorithm cv_text keyword case_sensitive with
    | .error e => .error e
    | .ok result =>
      if result.matches' ≠ [] then
        .ok (acc.1 ++ [keyword], acc.2.1, acc.2.2 + result.comparisons)
      else
        .ok (acc.1, acc.2.1 ++ [keyword], acc.2.2 + result.comparisons)

/-- Embeds analyze_cv (analyzer.py lines 80-155). -/
def analyze_cv (cv_text : List Char) (keywords : List (List Char)) (algorithm : String)
    (case_sensitive : Bool) : Except String AnalysisResult :=
  if cv_text = [] ∨ keywords = [] then
    .ok { cv_filename := "", job_description := "", algorithm_used := algorithm,
          matched_keywords := [], missing_keywords := keywords,
          relevance_score := 0, comparison_count := 0, total_keywords := keywords.length }
  else
    match keywords.foldlM (analyzeKeywordStep cv_text algorithm case_sensitive) ([], [], 0) with
    | .error e => .error e
    | .ok r =>
      .ok { cv_filename := "", job_description := "", algorithm_used := algorithm,
            matched_keywords := r.1, missing_keywords := r.2.1,
            relevance_score := calculate_relevance_score r.1 keywords,
            comparison_count := r.2.2, total_keywords := keywords.length }

/-- BatchAnalysisResult (analyzer.py lines 56-65) without the wall-clock
fields; the job description is represented by its keyword list. -/
structure BatchAnalysisResult where
  algorithm_used : String
  cv_results : List AnalysisResult
  average_relevance_score : ℚ
  total_cvs_analyzed : Nat
deriving DecidableEq

/-- The batch-statistics computation of analyze_multiple_cvs (analyzer.py
lines 221-225): average over the results with a strictly positive score,
0.0 when there are none. -/
def batchAverage (cv_results : List AnalysisResult) : ℚ :=
  let valid_results := cv_results.filter (fun r => 0 < r.relevance_score)
  if valid_results = [] then 0
  else (valid_results.map (fun r => r.relevance_score)).sum / (valid_results.length : ℚ)

/-- The zero-score placeholder result used by analyze_multiple_cvs (analyzer.py
lines 181-192 and 205-216) for a CV whose extraction failed or whose analysis
raised. -/
def errorResult (filename : String) (job_title : String) (algorithm : String)
    (keywords : List (List Char)) : AnalysisResult :=
  { cv_filename := filename, job_description := job_title, algorithm_used := algorithm,
    matched_keywords := [], missing_keywords := keywords,
    relevance_score := 0, comparison_count := 0, total_keywords := keywords.length }

/-- Embeds analyze_multiple_cvs (analyzer.py lines 157-240).  File loading is
abstracted: each CV file is given by the text _load_cv_text returns for it
(the empty list for a failed extraction) paired with its basename; the job
description is given by its title and keyword list. -/
def analyze_multiple_cvs (cv_files : List (String × List Char)) (job_title : String)
    (keywords : List (List Char)) (algorithm : String) (case_sensitive : Bool) :
    BatchAnalysisResult :=
  let cv_results := cv_files.map (fun f =>
    let cv_text := f.2
    if cv_text = [] ∨ pyStrip cv_text = [] then
      errorResult f.1 job_title algorithm keywords
    else
      match analyze_cv cv_text keywords algorithm case_sensitive with
      | .ok r => { r with cv_filename := f.1, job_description := job_title }
      | .error _ => errorResult f.1 job_title algorithm keywords)
  { algorithm_used := algorithm, cv_results := cv_results,
    average_relevance_score := batchAverage cv_results,
    total_cvs_analyzed := cv_files.length }

/-- Embeds get_top_matching_cvs (analyzer.py lines 262-280).  Python's sorted
with key relevance_score and reverse=True is the stable descending sort,
modelled by mergeSort with the corresponding comparator. -/
def get_top_matching_cvs (batch_result : BatchAnalysisResult) (top_n : Nat) :
    List AnalysisResult :=
  (batch_result.cv_results.mergeSort
    (fun a b => b.relevance_score ≤ a.relevance_score)).take top_n

/-! ### PDF extractor (extractors/pdf_extractor.py)

extract_text is embedded with its environment made explicit: the outcome of
_validate_file, the PDF_AVAILABLE flag, the outcome of the library extraction
call (already cleaned, since the claims do not concern _clean_text), and the
value the expression time.time() - start_time has at the single point on the
taken path where the code evaluates it. -/

structure ExtractionResult where
  success : Bool
  text : String
  error : Option String
  extraction_time : ℚ
deriving DecidableEq

/-- Embeds PDFExtractor.extract_text (pdf_extractor.py lines 39-90). -/
def pdf_extract_text (validate_ok pdf_available : Bool)
    (extraction : Except String String) (elapsed : ℚ) : ExtractionResult :=
  let result : ExtractionResult :=
    { success := false, text := "", error := none, extraction_time := 0 }
  if validate_ok = false then
    { result with error := some "Invalid PDF file" }
  else if pdf_available = false then
    { result with error := some "PDF extraction library not available" }
  else
    match extraction with
    | .ok cleaned_text =>
        { result with success := true, text := cleaned_text, extraction_time := elapsed }
    | .error e =>
        { result with error := some ("PDF extraction failed: " ++ e),
                      extraction_time := elapsed }

/-! ### Specification-side definitions

These are written from the specification's wording, to be compared with the
definitions above: the plain (un-reduced) Horner value of a window, and the
longest proper prefix of a string that is also a suffix of it. -/

/-- Horner-rule value of a character list with base 256 and no modulus. -/
def polyVal (w : List Char) : Int :=
  w.foldl (fun acc c => 256 * acc + ordc c) 0

/-- Whether the length-k prefix of w equals the length-k suffix of w
(k is only ever used with k < w.length, making it a proper border). -/
def borderB (w : List Char) (k : Nat) : Bool :=
  w.take k == w.drop (w.length - k)

/-- The length of the longest proper prefix of w that is also a suffix of w:
the largest k ≤ w.length - 1 whose length-k prefix equals its length-k
suffix (0 when w is empty). -/
def maxBorder (w : List Char) : Nat :=
  Nat.findGreatest (fun k => borderB w k = true) (w.length - 1)

/-- The length-k prefix of p is a suffix of the length-q prefix of p,
stated pointwise (k ≤ q ≤ len p in every use). -/
def BordP (p : List Char) (q k : Nat) : Prop :=
  ∀ d, d < k → ch p d = ch p (q - k + d)

/-! ## Theorems -/

/-- C2: for every pair of lists (matched_keywords, total_keywords), the
relevance score computed by _calculate_relevance_score equals 0 if
total_keywords is empty and otherwise
min 1 (matched/total + (min 0.1 (matched * 0.01) when matched > 0)); in
particular 5 matched of 5 keywords give 1.0 and 3 matched of 10 give 0.33. -/
theorem relevance_score_claim (matched total : List (List Char)) :
    (calculate_relevance_score matched total =
      if total = [] then 0
      else min 1 ((matched.length : ℚ) / (total.length : ℚ) +
        (if 0 < matched.length then
          min (1 / 10) ((matched.length : ℚ) * (1 / 100)) else 0)))
    ∧ (matched.length = 5 → total.length = 5 →
        calculate_relevance_score matched total = 1)
    ∧ (matched.length = 3 → total.length = 10 →
        calculate_relevance_score matched total = 33 / 100) := by
  have hform : calculate_relevance_score matched total =
      if total = [] then 0
      else min 1 ((matched.length : ℚ) / (total.length : ℚ) +
        (if 0 < matched.length then
          min (1 / 10) ((matched.length : ℚ) * (1 / 100)) else 0)) := by
    unfold calculate_relevance_score
    by_cases ht : total = []
    · simp [ht]
    · by_cases hm : 0 < matched.length <;> simp [ht, hm]
  refine ⟨hform, ?_, ?_⟩
  · intro h5 t5
    have ht : total ≠ [] := by
      intro h
      rw [h] at t5
      simp at t5
    rw [hform]
    rw [if_neg ht, h5, t5]
    norm_num
  · intro h3 t10
    have ht : total ≠ [] := by
      intro h
      rw [h] at t10
      simp at t10
    rw [hform]
    rw [if_neg ht, h3, t10]
    norm_num

/-- C2 witness: five matched keywords out of five give relevance score 1. -/
theorem relevance_score_claim_witness :
    calculate_relevance_score (List.replicate 5 ['a']) (List.replicate 5 ['a']) = 1 :=
  (relevance_score_claim (List.replicate 5 ['a']) (List.replicate 5 ['a'])).2.1 rfl rfl

/-- C5 counterexample: on a failed validation (with elapsed wall time 1 at the
points where the code would read the clock) extract_text reports
extraction_time 0, not the elapsed time, together with the
"Invalid PDF file" failure; so the extraction_time field does not equal the
elapsed time of the call regardless of outcome. -/
theorem pdf_extraction_time_counterexample :
    (pdf_extract_text false true (.ok "text") 1).extraction_time = 0 ∧
    (pdf_extract_text false true (.ok "text") 1).extraction_time ≠ 1 ∧
    (pdf_extract_text false true (.ok "text") 1).error = some "Invalid PDF file" ∧
    (pdf_extract_text false true (.ok "text") 1).success = false :=
  ⟨rfl, by decide, rfl, rfl⟩

/-- C5 amended: extract_text reports extraction_time equal to the elapsed
time on the successful path and on the in-extraction exception path, but on a
validation failure (error "Invalid PDF file") and on a missing extraction
library it returns the initialised extraction_time 0.0. -/
theorem pdf_extraction_time_spec (pa : Bool) (ex : Except String String) (el : ℚ)
    (s e : String) :
    ((pdf_extract_text false pa ex el).extraction_time = 0 ∧
      (pdf_extract_text false pa ex el).error = some "Invalid PDF file" ∧
      (pdf_extract_text false pa ex el).success = false) ∧
    ((pdf_extract_text true false ex el).extraction_time = 0 ∧
      (pdf_extract_text true false ex el).success = false) ∧
    ((pdf_extract_text true true (.ok s) el).extraction_time = el ∧
      (pdf_extract_text true true (.ok s) el).success = true) ∧
    ((pdf_extract_text true true (.error e) el).extraction_time = el ∧
      (pdf_extract_text true true (.error e) el).success = false) :=
  ⟨⟨rfl, rfl, rfl⟩, ⟨rfl, rfl⟩, ⟨rfl, rfl⟩, ⟨rfl, rfl⟩⟩

/-- Filtering the positive-score results and then reading off their scores is
the same as reading off all scores and keeping the positive ones. -/
theorem filter_map_score (rs : List AnalysisResult) :
    (rs.filter (fun r => decide (0 < r.relevance_score))).map (fun r => r.relevance_score)
      = (rs.map (fun r => r.relevance_score)).filter (fun q => decide (0 < q)) := by
  induction rs with
  | nil => rfl
  | cons r rs ih =>
    by_cases h : 0 < r.relevance_score <;> simp [h, ih]

/-- The batch-statistics step in terms of the list of per-CV scores. -/
theorem batchAverage_eq (rs : List AnalysisResult) :
    batchAverage rs =
      (let positives := (rs.map (fun r => r.relevance_score)).filter (fun q => 0 < q)
       if positives = [] then 0 else positives.sum / (positives.length : ℚ)) := by
  unfold batchAverage
  have hmap := filter_map_score rs
  have hempty : (rs.filter (fun r => decide (0 < r.relevance_score)) = []) ↔
      ((rs.map (fun r => r.relevance_score)).filter (fun q => decide (0 < q)) = []) := by
    rw [← hmap]
    simp
  have hlen : (rs.filter (fun r => decide (0 < r.relevance_score))).length =
      ((rs.map (fun r => r.relevance_score)).filter (fun q => decide (0 < q))).length := by
    rw [← hmap, List.length_map]
  by_cases h : rs.filter (fun r => decide (0 < r.relevance_score)) = []
  · simp only [h, hempty.mp h]
    simp
  · simp only [if_neg h, if_neg (fun hc => h (hempty.mpr hc)), hmap, hlen]

/-- C3: the average_relevance_score of every batch produced by
analyze_multiple_cvs is the sum of the strictly positive per-CV scores
divided by their number, and 0 when there is none; per-CV scores
[0, 0.5, 0.8] give average 0.65. -/
theorem batch_average_claim (cv_files : List (String × List Char)) (job_title : String)
    (keywords : List (List Char)) (algorithm : String) (flag : Bool) :
    ((analyze_multiple_cvs cv_files job_title keywords algorithm flag).average_relevance_score =
      if (((analyze_multiple_cvs cv_files job_title keywords algorithm
            flag).cv_results.map (fun r => r.relevance_score)).filter (fun q => 0 < q)) = []
      then 0
      else (((analyze_multiple_cvs cv_files job_title keywords algorithm
            flag).cv_results.map (fun r => r.relevance_score)).filter (fun q => 0 < q)).sum /
        (((((analyze_multiple_cvs cv_files job_title keywords algorithm
            flag).cv_results.map (fun r => r.relevance_score)).filter
              (fun q => 0 < q)).length : ℚ)))
    ∧ (∀ rs : List AnalysisResult,
        rs.map (fun r => r.relevance_score) = [0, 1/2, 4/5] →
        batchAverage rs = 13/20) := by
  constructor
  · have havg : (analyze_multiple_cvs cv_files job_title keywords algorithm
        flag).average_relevance_score =
        batchAverage (analyze_multiple_cvs cv_files job_title keywords algorithm
          flag).cv_results := rfl
    rw [havg, batchAverage_eq]
  · intro rs hscores
    rw [batchAverage_eq, hscores]
    norm_num
    decide

/-- C3 witness: a batch whose three CV results score 0, 1/2 and 4/5 has
average relevance score 13/20. -/
theorem batch_average_claim_witness :
    batchAverage
      [{ cv_filename := "a", job_description := "", algorithm_used := "KMP",
         matched_keywords := [], missing_keywords := [], relevance_score := 0,
         comparison_count := 0, total_keywords := 0 },
       { cv_filename := "b", job_description := "", algorithm_used := "KMP",
         matched_keywords := [], missing_keywords := [], relevance_score := 1/2,
         comparison_count := 0, total_keywords := 0 },
       { cv_filename := "c", job_description := "", algorithm_used := "KMP",
         matched_keywords := [], missing_keywords := [], relevance_score := 4/5,
         comparison_count := 0, total_keywords := 0 }] = 13/20 :=
  (batch_average_claim [] "" [] "KMP" false).2 _ rfl

/-- The descending-score comparator used by get_top_matching_cvs is
transitive. -/
theorem scoreLe_trans (a b c : AnalysisResult) :
    (decide (b.relevance_score ≤ a.relevance_score)) = true →
    (decide (c.relevance_score ≤ b.relevance_score)) = true →
    (decide (c.relevance_score ≤ a.relevance_score)) = true := by
  simp only [decide_eq_true_eq]
  exact fun h1 h2 => le_trans h2 h1

/-- The descending-score comparator used by get_top_matching_cvs is total. -/
theorem scoreLe_total (a b : AnalysisResult) :
    ((decide (b.relevance_score ≤ a.relevance_score)) ||
      (decide (a.relevance_score ≤ b.relevance_score))) = true := by
  simp only [Bool.or_eq_true, decide_eq_true_eq]
  exact le_total _ _

/-- C8: get_top_matching_cvs returns the first N entries of the batch's
result list sorted by relevance score descending, where the sorted list is a
permutation of the batch's list, is pairwise descending, and keeps the
entries of any fixed score in their original relative order (stability); for
input scores [0.2, 0.9, 0.9, 0.1] and N = 2 it returns the two 0.9-scoring
entries in their original relative order. -/
theorem top_n_claim (b : BatchAnalysisResult) (n : Nat) :
    (∃ s : List AnalysisResult,
        get_top_matching_cvs b n = s.take n ∧
        s.Perm b.cv_results ∧
        s.Pairwise (fun a c => c.relevance_score ≤ a.relevance_score) ∧
        ∀ q : ℚ, s.filter (fun r => r.relevance_score = q) =
          b.cv_results.filter (fun r => r.relevance_score = q))
    ∧ (∀ r1 r2 r3 r4 : AnalysisResult,
        r1.relevance_score = 1/5 → r2.relevance_score = 9/10 →
        r3.relevance_score = 9/10 → r4.relevance_score = 1/10 →
        b.cv_results = [r1, r2, r3, r4] → n = 2 →
        get_top_matching_cvs b n = [r2, r3]) := by
  constructor
  · refine ⟨b.cv_results.mergeSort (fun a c => c.relevance_score ≤ a.relevance_score),
      rfl, List.mergeSort_perm _ _, ?_, ?_⟩
    · have hp := List.sorted_mergeSort scoreLe_trans scoreLe_total b.cv_results
      exact hp.imp (fun h => by simpa using h)
    · intro q
      set le : AnalysisResult → AnalysisResult → Bool :=
        fun a c => decide (c.relevance_score ≤ a.relevance_score) with hle
      set c := b.cv_results.filter (fun r => decide (r.relevance_score = q)) with hc
      have hcq : ∀ a ∈ c, a.relevance_score = q := by
        intro a ha
        have := (List.mem_filter.mp ha).2
        simpa using this
      have hsub : List.Sublist c (b.cv_results.mergeSort le) := by
        apply List.sublist_mergeSort scoreLe_trans scoreLe_total
        · apply List.pairwise_of_forall_mem_list
          intro a ha a' ha'
          simp [hle, hcq a ha, hcq a' ha']
        · exact List.filter_sublist _
      have hperm : ((b.cv_results.mergeSort le).filter
          (fun r => decide (r.relevance_score = q))).Perm c :=
        List.Perm.filter _ (List.mergeSort_perm _ _)
      have hcfilter : c.filter (fun r => decide (r.relevance_score = q)) = c := by
        rw [List.filter_eq_self]
        intro a ha
        simp [hcq a ha]
      have hsub2 : List.Sublist c ((b.cv_results.mergeSort le).filter
          (fun r => decide (r.relevance_score = q))) := by
        rw [← hcfilter]
        exact List.Sublist.filter _ hsub
      exact (List.Sublist.eq_of_length hsub2 (hperm.length_eq.symm)).symm
  · intro r1 r2 r3 r4 h1 h2 h3 h4 hcv hn
    simp only [get_top_matching_cvs, hcv, hn]
    norm_num [List.mergeSort, List.merge, h1, h2, h3, h4]

/-- C8 witness: four concrete results with scores 0.2, 0.9, 0.9, 0.1; the top
two are the two 0.9-scoring entries, first-loaded first. -/
theorem top_n_claim_witness :
    get_top_matching_cvs
      { algorithm_used := "KMP",
        cv_results :=
          [{ cv_filename := "a", job_description := "", algorithm_used := "KMP",
             matched_keywords := [], missing_keywords := [], relevance_score := 1/5,
             comparison_count := 0, total_keywords := 0 },
           { cv_filename := "b", job_description := "", algorithm_used := "KMP",
             matched_keywords := [], missing_keywords := [], relevance_score := 9/10,
             comparison_count := 0, total_keywords := 0 },
           { cv_filename := "c", job_description := "", algorithm_used := "KMP",
             matched_keywords := [], missing_keywords := [], relevance_score := 9/10,
             comparison_count := 0, total_keywords := 0 },
           { cv_filename := "d", job_description := "", algorithm_used := "KMP",
             matched_keywords := [], missing_keywords := [], relevance_score := 1/10,
             comparison_count := 0, total_keywords := 0 }],
        average_relevance_score := 0, total_cvs_analyzed := 4 } 2 =
      [{ cv_filename := "b", job_description := "", algorithm_used := "KMP",
         matched_keywords := [], missing_keywords := [], relevance_score := 9/10,
         comparison_count := 0, total_keywords := 0 },
       { cv_filename := "c", job_description := "", algorithm_used := "KMP",
         matched_keywords := [], missing_keywords := [], relevance_score := 9/10,
         comparison_count := 0, total_keywords := 0 }] :=
  (top_n_claim _ 2).2 _ _ _ _ rfl rfl rfl rfl rfl rfl

/-! ### analyze_cv: validation behaviour and blank keywords -/

/-- The three canonical algorithm names. -/
def validAlgorithm (algorithm : String) : Prop :=
  algorithm = "Brute Force" ∨ algorithm = "Rabin-Karp" ∨ algorithm = "KMP"

instance (algorithm : String) : Decidable (validAlgorithm algorithm) := by
  unfold validAlgorithm
  infer_instance

/-- On a keyword that strips to blank, the per-keyword loop body just skips. -/
theorem step_blank (cv_text : List Char) (algorithm : String) (flag : Bool)
    (acc : List (List Char) × List (List Char) × Nat) (k : List Char)
    (hk : pyStrip k = []) :
    analyzeKeywordStep cv_text algorithm flag acc k = .ok acc := by
  unfold analyzeKeywordStep
  simp [hk]

/-- On a known algorithm name the per-keyword loop body cannot raise. -/
theorem step_ok_of_valid (cv_text : List Char) (algorithm : String) (flag : Bool)
    (halg : validAlgorithm algorithm)
    (acc : List (List Char) × List (List Char) × Nat) (k : List Char) :
    ∃ a', analyzeKeywordStep cv_text algorithm flag acc k = .ok a' := by
  unfold analyzeKeywordStep
  by_cases hk : pyStrip k = []
  · exact ⟨acc, by simp [hk]⟩
  · have hsel : ∃ res, selectSearch algorithm cv_text (pyStrip k) flag = .ok res := by
      unfold selectSearch
      rcases halg with h | h | h <;> simp [h]
    obtain ⟨res, hres⟩ := hsel
    rw [if_neg hk]
    simp only [hres]
    by_cases hm : res.matches' ≠ []
    · rw [if_pos hm]
      exact ⟨_, rfl⟩
    · rw [if_neg hm]
      exact ⟨_, rfl⟩

/-- On an unknown algorithm name the per-keyword loop body raises as soon as
it sees a non-blank keyword. -/
theorem step_error_of_invalid (cv_text : List Char) (algorithm : String) (flag : Bool)
    (halg : ¬ validAlgorithm algorithm)
    (acc : List (List Char) × List (List Char) × Nat) (k : List Char)
    (hk : pyStrip k ≠ []) :
    analyzeKeywordStep cv_text algorithm flag acc k =
      .error ("Unknown algorithm: " ++ algorithm) := by
  unfold validAlgorithm at halg
  push_neg at halg
  unfold analyzeKeywordStep selectSearch
  simp [hk, halg.1, halg.2.1, halg.2.2]

/-- With a known algorithm name the keyword loop always completes. -/
theorem foldlM_ok_of_valid (cv_text : List Char) (algorithm : String) (flag : Bool)
    (halg : validAlgorithm algorithm) :
    ∀ (kws : List (List Char)) (acc : List (List Char) × List (List Char) × Nat),
    ∃ r, kws.foldlM (analyzeKeywordStep cv_text algorithm flag) acc = .ok r := by
  intro kws
  induction kws with
  | nil =>
    intro acc
    exact ⟨acc, rfl⟩
  | cons k kws ih =>
    intro acc
    obtain ⟨a', hstep⟩ := step_ok_of_valid cv_text algorithm flag halg acc k
    obtain ⟨r, hfold⟩ := ih a'
    refine ⟨r, ?_⟩
    rw [List.foldlM_cons, hstep]
    exact hfold

/-- With an unknown algorithm name the keyword loop raises as soon as it
reaches the first non-blank keyword. -/
theorem foldlM_error_of_invalid (cv_text : List Char) (algorithm : String) (flag : Bool)
    (halg : ¬ validAlgorithm algorithm) :
    ∀ (kws : List (List Char)) (acc : List (List Char) × List (List Char) × Nat),
    (∃ k ∈ kws, pyStrip k ≠ []) →
    kws.foldlM (analyzeKeywordStep cv_text algorithm flag) acc =
      .error ("Unknown algorithm: " ++ algorithm) := by
  intro kws
  induction kws with
  | nil =>
    intro acc h
    simp at h
  | cons k kws ih =>
    intro acc h
    by_cases hk : pyStrip k = []
    · have htail : ∃ k' ∈ kws, pyStrip k' ≠ [] := by
        rcases h with ⟨k', hk', hs⟩
        rcases List.mem_cons.mp hk' with rfl | hmem
        · exact absurd hk hs
        · exact ⟨k', hmem, hs⟩
      rw [List.foldlM_cons, step_blank cv_text algorithm flag acc k hk]
      exact ih acc htail
    · rw [List.foldlM_cons, step_error_of_invalid cv_text algorithm flag halg acc k hk]
      rfl

/-- The first character of a stripped keyword, if any, is not whitespace. -/
theorem dropWhile_head_false (p : Char → Bool) (l : List Char)
    (c : Char) (t : List Char) (h : l.dropWhile p = c :: t) : p c = false := by
  induction l with
  | nil => simp at h
  | cons x xs ih =>
    rw [List.dropWhile_cons] at h
    by_cases hx : p x = true
    · rw [if_pos hx] at h
      exact ih h
    · rw [if_neg hx] at h
      cases h
      simpa using hx

/-- Stripping is idempotent. -/
theorem pyStrip_idem (s : List Char) : pyStrip (pyStrip s) = pyStrip s := by
  have hdef : ∀ l : List Char,
      pyStrip l = List.rdropWhile Char.isWhitespace (l.dropWhile Char.isWhitespace) :=
    fun l => rfl
  rw [hdef, hdef s]
  set u := s.dropWhile Char.isWhitespace with hu
  have hd : (List.rdropWhile Char.isWhitespace u).dropWhile Char.isWhitespace =
      List.rdropWhile Char.isWhitespace u := by
    rcases hv : List.rdropWhile Char.isWhitespace u with _ | ⟨a, v'⟩
    · rfl
    · obtain ⟨t, ht⟩ := List.rdropWhile_prefix Char.isWhitespace u
      rw [hv] at ht
    -- ht : a :: v' ++ t = u, and u.dropWhile = u, so the head of u fails the predicate
      have hau : u.dropWhile Char.isWhitespace = u := by
        rw [hu]
        exact List.dropWhile_idempotent _ _
      have hcons : u = a :: (v' ++ t) := by
        rw [← ht]
        simp
      have hna : Char.isWhitespace a = false := by
        apply dropWhile_head_false Char.isWhitespace u a (v' ++ t)
        rw [hau, hcons]
      rw [List.dropWhile_cons, hna]
      simp
  rw [hd, List.rdropWhile_idempotent]

/-- A member of the matched or missing list is itself stripped and non-blank,
so a blank keyword is never such a member. -/
theorem blank_not_stripped (k x : List Char) (hk : pyStrip k = [])
    (hx : ∃ k' , pyStrip k' = x ∧ x ≠ []) : k ≠ x := by
  rcases hx with ⟨k', hk', hne⟩
  intro hkx
  apply hne
  rw [← hkx] at hk' ⊢
  rw [← hk', pyStrip_idem] at hk
  rw [← hk', hk]

/-- C4: with non-empty CV text and a keyword list containing a non-blank
keyword, analyze_cv raises exactly when the algorithm name is none of
"Brute Force", "Rabin-Karp", "KMP"; with empty CV text or an empty keyword
list it never raises and short-circuits to a zero-score result listing every
keyword as missing. -/
theorem analyze_cv_validation_claim (cv_text : List Char) (keywords : List (List Char))
    (algorithm : String) (flag : Bool) :
    (cv_text ≠ [] → keywords ≠ [] → (∃ k ∈ keywords, pyStrip k ≠ []) →
      ((analyze_cv cv_text keywords algorithm flag).isOk = false ↔
        ¬ validAlgorithm algorithm))
    ∧ ((cv_text = [] ∨ keywords = []) →
        analyze_cv cv_text keywords algorithm flag =
          .ok { cv_filename := "", job_description := "", algorithm_used := algorithm,
                matched_keywords := [], missing_keywords := keywords,
                relevance_score := 0, comparison_count := 0,
                total_keywords := keywords.length }) := by
  constructor
  · intro hcv hkw hnb
    unfold analyze_cv
    rw [if_neg (by simp [hcv, hkw])]
    constructor
    · intro hnotok halg
      obtain ⟨r, hfold⟩ := foldlM_ok_of_valid cv_text algorithm flag halg keywords ([], [], 0)
      rw [hfold] at hnotok
      simp [Except.isOk, Except.toBool] at hnotok
    · intro halg
      rw [foldlM_error_of_invalid cv_text algorithm flag halg keywords ([], [], 0) hnb]
      rfl
  · intro h
    unfold analyze_cv
    rw [if_pos h]

/-- C4 witness: with CV text "a", keyword list ["b"] and the unknown
algorithm name "QuickSearch", analyze_cv raises; with empty CV text it
returns the zero-score all-missing result even for that unknown name. -/
theorem analyze_cv_validation_claim_witness :
    (analyze_cv ['a'] [['b']] "QuickSearch" false).isOk = false ∧
    analyze_cv [] [['b']] "QuickSearch" false =
      .ok { cv_filename := "", job_description := "", algorithm_used := "QuickSearch",
            matched_keywords := [], missing_keywords := [['b']],
            relevance_score := 0, comparison_count := 0, total_keywords := 1 } :=
  ⟨((analyze_cv_validation_claim ['a'] [['b']] "QuickSearch" false).1
      (by decide) (by decide) ⟨['b'], by decide, by decide⟩).mpr (by decide),
   (analyze_cv_validation_claim [] [['b']] "QuickSearch" false).2 (Or.inl rfl)⟩

/-- Whenever the per-keyword loop body succeeds (for any algorithm name), it
either skipped a blank keyword or appended the stripped keyword to exactly
one of the matched/missing lists. -/
theorem step_ok_cases (cv_text : List Char) (algorithm : String) (flag : Bool)
    (acc a' : List (List Char) × List (List Char) × Nat) (k : List Char)
    (h : analyzeKeywordStep cv_text algorithm flag acc k = .ok a') :
    (pyStrip k = [] ∧ a' = acc) ∨
      (pyStrip k ≠ [] ∧
        (a'.1 = acc.1 ++ [pyStrip k] ∧ a'.2.1 = acc.2.1 ∨
         a'.1 = acc.1 ∧ a'.2.1 = acc.2.1 ++ [pyStrip k])) := by
  unfold analyzeKeywordStep at h
  by_cases hk : pyStrip k = []
  · rw [if_pos hk] at h
    cases h
    exact Or.inl ⟨hk, rfl⟩
  · rw [if_neg hk] at h
    refine Or.inr ⟨hk, ?_⟩
    rcases hsr : selectSearch algorithm cv_text (pyStrip k) flag with e | result
    · rw [hsr] at h
      simp at h
    · simp only [hsr] at h
      by_cases hm : result.matches' ≠ []
      · rw [if_pos hm] at h
        cases h
        exact Or.inl ⟨rfl, rfl⟩
      · rw [if_neg hm] at h
        cases h
        exact Or.inr ⟨rfl, rfl⟩

/-- Whenever the whole keyword loop succeeds (for any algorithm name), the
matched and missing lists together contain one entry per non-blank keyword,
each being the stripped form of some non-blank input keyword. -/
theorem foldlM_ok_spec (cv_text : List Char) (algorithm : String) (flag : Bool) :
    ∀ (kws : List (List Char)) (acc : List (List Char) × List (List Char) × Nat)
      (r : List (List Char) × List (List Char) × Nat),
    kws.foldlM (analyzeKeywordStep cv_text algorithm flag) acc = .ok r →
      r.1.length + r.2.1.length =
        acc.1.length + acc.2.1.length + (kws.filter (fun k => !(pyStrip k == []))).length ∧
      (∀ x, x ∈ r.1 → x ∈ acc.1 ∨ ∃ k ∈ kws, pyStrip k = x ∧ x ≠ []) ∧
      (∀ x, x ∈ r.2.1 → x ∈ acc.2.1 ∨ ∃ k ∈ kws, pyStrip k = x ∧ x ≠ []) := by
  intro kws
  induction kws with
  | nil =>
    intro acc r h
    rw [List.foldlM_nil] at h
    cases h
    exact ⟨by simp, by simp, by simp⟩
  | cons k kws ih =>
    intro acc r h
    rw [List.foldlM_cons] at h
    rcases hstep : analyzeKeywordStep cv_text algorithm flag acc k with e | a'
    · rw [hstep] at h
      have h' : (Except.error e : Except String (List (List Char) × List (List Char) × Nat)) =
          .ok r := h
      exact Except.noConfusion h'
    · rw [hstep] at h
      have hbind : kws.foldlM (analyzeKeywordStep cv_text algorithm flag) a' = .ok r := h
      obtain ⟨hlen, hmat, hmis⟩ := ih a' r hbind
      have hcase := step_ok_cases cv_text algorithm flag acc a' k hstep
      refine ⟨?_, ?_, ?_⟩
      · rcases hcase with ⟨hk, ha⟩ | ⟨hk, hor⟩
        · subst ha
          rw [hlen]
          simp [List.filter_cons, hk]
        · rcases hor with ⟨h1, h2⟩ | ⟨h1, h2⟩ <;> rw [hlen, h1, h2] <;>
            simp [List.filter_cons, hk] <;> omega
      · intro x hx
        rcases hmat x hx with hx' | ⟨k', hk', hsk'⟩
        · rcases hcase with ⟨hk, ha⟩ | ⟨hk, ⟨h1, _⟩ | ⟨h1, _⟩⟩
          · subst ha
            exact Or.inl hx'
          · rw [h1] at hx'
            rcases List.mem_append.mp hx' with hmm | hmm
            · exact Or.inl hmm
            · have hxk : x = pyStrip k := by simpa using hmm
              exact Or.inr ⟨k, List.mem_cons_self k kws, hxk.symm, hxk ▸ hk⟩
          · rw [h1] at hx'
            exact Or.inl hx'
        · exact Or.inr ⟨k', List.mem_cons_of_mem k hk', hsk'⟩
      · intro x hx
        rcases hmis x hx with hx' | ⟨k', hk', hsk'⟩
        · rcases hcase with ⟨hk, ha⟩ | ⟨hk, ⟨_, h2⟩ | ⟨_, h2⟩⟩
          · subst ha
            exact Or.inl hx'
          · rw [h2] at hx'
            exact Or.inl hx'
          · rw [h2] at hx'
            rcases List.mem_append.mp hx' with hmm | hmm
            · exact Or.inl hmm
            · have hxk : x = pyStrip k := by simpa using hmm
              exact Or.inr ⟨k, List.mem_cons_self k kws, hxk.symm, hxk ▸ hk⟩
        · exact Or.inr ⟨k', List.mem_cons_of_mem k hk', hsk'⟩

/-- C9: when analyze_cv returns a result for non-empty CV text and a keyword
list with a blank (whitespace-only) entry, the blank keywords appear in
neither the matched nor the missing list, yet the total_keywords field and
the relevance-score denominator still count the full keyword list, so the
matched and missing lists together are strictly shorter than
total_keywords. -/
theorem analyze_cv_blank_keywords_claim (cv_text : List Char)
    (keywords : List (List Char)) (algorithm : String) (flag : Bool)
    (r : AnalysisResult) (hcv : cv_text ≠ [])
    (hok : analyze_cv cv_text keywords algorithm flag = .ok r)
    (hblank : ∃ k ∈ keywords, pyStrip k = []) :
    (∀ k ∈ keywords, pyStrip k = [] →
      k ∉ r.matched_keywords ∧ k ∉ r.missing_keywords)
    ∧ r.total_keywords = keywords.length
    ∧ r.relevance_score = calculate_relevance_score r.matched_keywords keywords
    ∧ r.matched_keywords.length + r.missing_keywords.length < r.total_keywords := by
  have hkw : keywords ≠ [] := by
    rcases hblank with ⟨k, hk, -⟩
    exact List.ne_nil_of_mem hk
  unfold analyze_cv at hok
  rw [if_neg (by simp [hcv, hkw])] at hok
  rcases hfold : keywords.foldlM (analyzeKeywordStep cv_text algorithm flag) ([], [], 0) with
    e | fr
  · rw [hfold] at hok
    simp at hok
  · rw [hfold] at hok
    injection hok with hr
    obtain ⟨hlen, hmat, hmis⟩ := foldlM_ok_spec cv_text algorithm flag keywords ([], [], 0)
      fr hfold
    have hltlen : (keywords.filter (fun k => !(pyStrip k == []))).length < keywords.length := by
      apply List.length_filter_lt_length_iff_exists.mpr
      rcases hblank with ⟨k, hk, hs⟩
      exact ⟨k, hk, by simp [hs]⟩
    subst hr
    refine ⟨?_, rfl, rfl, ?_⟩
    · intro k hk hs
      constructor
      · intro hmem
        rcases hmat k hmem with h | ⟨k', _, hk', hne⟩
        · simp at h
        · exact blank_not_stripped k k hs ⟨k', hk', hne⟩ rfl
      · intro hmem
        rcases hmis k hmem with h | ⟨k', _, hk', hne⟩
        · simp at h
        · exact blank_not_stripped k k hs ⟨k', hk', hne⟩ rfl
    · show fr.1.length + fr.2.1.length < keywords.length
      simp only [List.length_nil] at hlen
      omega

/-- C9 witness: CV text "a" with keywords ["a", " "]: the blank keyword is
counted in total_keywords (2) but recorded in neither list, so
1 + 0 < 2. -/
theorem analyze_cv_blank_keywords_claim_witness :
    ({ cv_filename := "", job_description := "", algorithm_used := "Brute Force",
       matched_keywords := [['a']], missing_keywords := [],
       relevance_score := calculate_relevance_score [['a']] [['a'], [' ']],
       comparison_count := 1, total_keywords := 2 } : AnalysisResult).matched_keywords.length +
      ({ cv_filename := "", job_description := "", algorithm_used := "Brute Force",
         matched_keywords := [['a']], missing_keywords := [],
         relevance_score := calculate_relevance_score [['a']] [['a'], [' ']],
         comparison_count := 1, total_keywords := 2 } : AnalysisResult).missing_keywords.length <
      ({ cv_filename := "", job_description := "", algorithm_used := "Brute Force",
         matched_keywords := [['a']], missing_keywords := [],
         relevance_score := calculate_relevance_score [['a']] [['a'], [' ']],
         comparison_count := 1, total_keywords := 2 } : AnalysisResult).total_keywords :=
  (analyze_cv_blank_keywords_claim ['a'] [['a'], [' ']] "Brute Force" false
      { cv_filename := "", job_description := "", algorithm_used := "Brute Force",
        matched_keywords := [['a']], missing_keywords := [],
        relevance_score := calculate_relevance_score [['a']] [['a'], [' ']],
        comparison_count := 1, total_keywords := 2 }
      (by decide) rfl ⟨[' '], by decide, by decide⟩).2.2.2

/-! ### Brute Force and Rabin-Karp: what the match lists contain -/

/-- The inner verification loop finds the whole pattern exactly when the
pattern is the corresponding prefix of the remaining text. -/
theorem commonPrefixLen_eq_length_iff (l p : List Char) :
    commonPrefixLen l p = p.length ↔ l.take p.length = p := by
  induction l generalizing p with
  | nil =>
    cases p with
    | nil => simp [commonPrefixLen]
    | cons b bs => simp [commonPrefixLen]
  | cons a as ih =>
    cases p with
    | nil => simp [commonPrefixLen]
    | cons b bs =>
      simp only [commonPrefixLen, List.length_cons, List.take_succ_cons]
      by_cases hab : a = b
      · subst hab
        rw [if_pos rfl]
        constructor
        · intro h
          have h2 : List.take bs.length as = bs := (ih bs).mp (by omega)
          rw [h2]
        · intro h
          have h2 := (List.cons_eq_cons.mp h).2
          have := (ih bs).mpr h2
          omega
      · rw [if_neg hab]
        constructor
        · intro h
          omega
        · intro h
          exact absurd (List.cons_eq_cons.mp h).1 hab

/-- The matches component of the Brute Force main loop over the first k
offsets. -/
theorem bf_fold_matches (t p : List Char) (k : Nat) :
    ∀ (ms : List Nat) (cs : Nat),
    (((List.range k).foldl (bfStep t p) (ms, cs)).1 =
      ms ++ (List.range k).filter (fun i => matchAtB t p i)) := by
  induction k with
  | zero => intro ms cs; simp
  | succ k ih =>
    intro ms cs
    rw [List.range_succ, List.foldl_append, List.filter_append]
    rcases hfold : (List.range k).foldl (bfStep t p) (ms, cs) with ⟨ms', cs'⟩
    have hms' : ms' = ms ++ (List.range k).filter (fun i => matchAtB t p i) := by
      have := ih ms cs
      rw [hfold] at this
      exact this
    simp only [List.foldl_cons, List.foldl_nil, bfStep]
    by_cases hm : commonPrefixLen (t.drop k) p = p.length
    · have hmatch : matchAtB t p k = true := by
        rw [matchAtB, beq_iff_eq]
        exact (commonPrefixLen_eq_length_iff _ _).mp hm
      simp [hm, hmatch, hms']
    · have hmatch : matchAtB t p k = false := by
        rw [matchAtB]
        rw [Bool.eq_false_iff, ne_eq, beq_iff_eq]
        intro hc
        exact hm ((commonPrefixLen_eq_length_iff _ _).mpr hc)
      simp [hm, hmatch, hms']

/-- The Brute Force match list is exactly the list of positions where the
pattern occurs, over offsets 0 .. n-m. -/
theorem brute_force_matches_eq (text pat : List Char) (flag : Bool) :
    (brute_force_search text pat flag).matches' =
      (List.range ((caseNorm flag text).length - (caseNorm flag pat).length + 1)).filter
        (fun i => matchAtB (caseNorm flag text) (caseNorm flag pat) i) := by
  unfold brute_force_search
  set t := caseNorm flag text
  set p := caseNorm flag pat
  by_cases hmn : p.length > t.length
  · rw [if_pos hmn]
    have hn : t.length - p.length = 0 := by omega
    have hr1 : List.range (0 + 1) = [0] := rfl
    simp only [hn, hr1]
    have : matchAtB t p 0 = false := by
      rw [matchAtB, Bool.eq_false_iff, ne_eq, beq_iff_eq]
      intro hc
      have := congrArg List.length hc
      simp at this
      omega
    simp [this]
  · rw [if_neg hmn]
    simpa using bf_fold_matches t p (t.length - p.length + 1) [] 0

/-- With the empty pattern the Brute Force inner loop makes no comparisons. -/
theorem bf_fold_comparisons_nil (t : List Char) (k : Nat) :
    ∀ (ms : List Nat) (cs : Nat),
    (((List.range k).foldl (bfStep t []) (ms, cs)).2 = cs) := by
  induction k with
  | zero => intro ms cs; simp
  | succ k ih =>
    intro ms cs
    rw [List.range_succ, List.foldl_append]
    rcases hfold : (List.range k).foldl (bfStep t []) (ms, cs) with ⟨ms', cs'⟩
    have hcs' : cs' = cs := by
      have := ih ms cs
      rw [hfold] at this
      exact this
    simp [bfStep, commonPrefixLen, hcs']

/-- The state of the Rabin-Karp main loop after the first k window
positions: the matches found so far are the positions whose rolling hash
equals the pattern hash and which verify character by character, and the
rolling hash is rkHashAt at the next position to be examined. -/
theorem rk_fold_spec (t p : List Char) (n m : Nat)
    (hm : m = p.length) :
    ∀ k, k ≤ n - m + 1 →
    ((List.range k).foldl (rkStep t p (hornerHash p) n m)
        ([], 0, hornerHash (t.take m))).1 =
      (List.range k).filter
        (fun i => hornerHash p == rkHashAt t m i && matchAtB t p i) ∧
    ((List.range k).foldl (rkStep t p (hornerHash p) n m)
        ([], 0, hornerHash (t.take m))).2.2 = rkHashAt t m (min k (n - m)) := by
  intro k
  induction k with
  | zero =>
    intro hk
    exact ⟨rfl, by simp [rkHashAt]⟩
  | succ k ih =>
    intro hk
    obtain ⟨h1, h2⟩ := ih (by omega)
    have hkle : k ≤ n - m := by omega
    have hmin : min k (n - m) = k := by omega
    rw [hmin] at h2
    rw [List.range_succ, List.foldl_append]
    rcases hfold : (List.range k).foldl (rkStep t p (hornerHash p) n m)
        ([], 0, hornerHash (t.take m)) with ⟨ms, cs, th⟩
    rw [hfold] at h1 h2
    simp only at h1 h2
    have hfilter : (List.range (k + 1)).filter
        (fun i => hornerHash p == rkHashAt t m i && matchAtB t p i) =
        (List.range k).filter
          (fun i => hornerHash p == rkHashAt t m i && matchAtB t p i) ++
          (if (hornerHash p == rkHashAt t m k && matchAtB t p k) then [k] else []) := by
      cases hc : (hornerHash p == rkHashAt t m k && matchAtB t p k) <;>
        simp [List.range_succ, List.filter_append, List.filter_singleton, hc]
    have hhash : (if k < n - m then rkNext t m k th else th) =
        rkHashAt t m (min (k + 1) (n - m)) := by
      by_cases hlt : k < n - m
      · rw [if_pos hlt, h2]
        have : min (k + 1) (n - m) = k + 1 := by omega
        rw [this]
        rfl
      · have hknm : k = n - m := by omega
        have : min (k + 1) (n - m) = k := by omega
        rw [if_neg hlt, this, h2]
    constructor
    · simp only [List.foldl_cons, List.foldl_nil, rkStep, hfilter]
      by_cases hh : hornerHash p = th
      · rw [if_pos hh]
        by_cases hj : commonPrefixLen (t.drop k) p = m
        · have hmatch : matchAtB t p k = true := by
            rw [matchAtB, beq_iff_eq]
            exact (commonPrefixLen_eq_length_iff _ _).mp (hm ▸ hj)
          have hbeq : (hornerHash p == rkHashAt t m k) = true := by
            rw [beq_iff_eq, ← h2]
            exact hh
          simp [hj, hmatch, hbeq, h1]
        · have hmatch : matchAtB t p k = false := by
            rw [matchAtB]
            rw [Bool.eq_false_iff, ne_eq, beq_iff_eq]
            intro hc
            exact hj (hm ▸ (commonPrefixLen_eq_length_iff _ _).mpr hc)
          simp [hj, hmatch, h1]
      · rw [if_neg hh]
        have hbeq : (hornerHash p == rkHashAt t m k) = false := by
          rw [Bool.eq_false_iff, ne_eq, beq_iff_eq, ← h2]
          exact hh
        simp [hbeq, h1]
    · simp only [List.foldl_cons, List.foldl_nil, rkStep]
      exact hhash

/-- The Rabin-Karp match list is exactly the list of positions whose rolling
hash equals the pattern hash and which verify character by character. -/
theorem rabin_karp_matches_eq (text pat : List Char) (flag : Bool)
    (hmn : (caseNorm flag pat).length ≤ (caseNorm flag text).length) :
    (rabin_karp_search text pat flag).matches' =
      (List.range ((caseNorm flag text).length - (caseNorm flag pat).length + 1)).filter
        (fun i => hornerHash (caseNorm flag pat) ==
            rkHashAt (caseNorm flag text) (caseNorm flag pat).length i &&
          matchAtB (caseNorm flag text) (caseNorm flag pat) i) := by
  unfold rabin_karp_search
  set t := caseNorm flag text
  set p := caseNorm flag pat
  rw [if_neg (by omega)]
  obtain ⟨h1, -⟩ := rk_fold_spec t p t.length p.length rfl
    (t.length - p.length + 1) (le_refl _)
  exact h1

/-- The inner verification loop does nothing on an empty pattern. -/
theorem commonPrefixLen_nil_right (l : List Char) : commonPrefixLen l [] = 0 := by
  cases l <;> rfl

/-- With the empty pattern the Rabin-Karp loop makes no comparisons. -/
theorem rk_fold_comparisons_nil (t : List Char) (ph : Int) (n : Nat) (k : Nat) :
    ∀ (ms : List Nat) (cs : Nat) (th : Int),
    ((List.range k).foldl (rkStep t [] ph n 0) (ms, cs, th)).2.1 = cs := by
  induction k with
  | zero => intro ms cs th; rfl
  | succ k ih =>
    intro ms cs th
    rw [List.range_succ, List.foldl_append]
    rcases hfold : (List.range k).foldl (rkStep t [] ph n 0) (ms, cs, th) with ⟨ms', cs', th'⟩
    have hcs' : cs' = cs := by
      have := ih ms cs th
      rw [hfold] at this
      exact this
    simp only [List.foldl_cons, List.foldl_nil, rkStep]
    by_cases hh : ph = th' <;>
      simp [hh, hcs', commonPrefixLen_nil_right]

/-- Case normalisation of the empty pattern. -/
theorem caseNorm_nil (flag : Bool) : caseNorm flag [] = [] := by
  cases flag <;> rfl

/-- Case normalisation preserves length. -/
theorem caseNorm_length (flag : Bool) (s : List Char) :
    (caseNorm flag s).length = s.length := by
  cases flag <;> simp [caseNorm, pyLower]

/-- The empty pattern occurs at every position. -/
theorem matchAtB_nil (t : List Char) (i : Nat) : matchAtB t [] i = true := by
  rw [matchAtB]
  rfl

/-- C10 counterexample: on the one-character text "a" with the empty pattern,
rabin_karp_search returns only position 0 — position 1 is missing although
the claim requires matches at positions 0 and 1 (as brute_force_search
indeed returns). -/
theorem empty_pattern_counterexample :
    (rabin_karp_search ['a'] [] false).matches' = [0] ∧
    1 ∉ (rabin_karp_search ['a'] [] false).matches' ∧
    (brute_force_search ['a'] [] false).matches' = [0, 1] := by
  refine ⟨by decide, by decide, by decide⟩

/-- C10 amended: with the empty pattern, brute_force_search returns a match
at every position 0 .. len(text) with comparison count 0, as claimed; but
rabin_karp_search (also with comparison count 0) returns exactly the
positions whose rolling hash is 0, which always include position 0 but in
general not every position. -/
theorem empty_pattern_claim (text : List Char) (flag : Bool) :
    ((brute_force_search text [] flag).matches' = List.range (text.length + 1) ∧
      (brute_force_search text [] flag).comparisons = 0) ∧
    ((rabin_karp_search text [] flag).matches' =
        (List.range (text.length + 1)).filter
          (fun i => (0 : Int) == rkHashAt (caseNorm flag text) 0 i) ∧
      (rabin_karp_search text [] flag).comparisons = 0 ∧
      0 ∈ (rabin_karp_search text [] flag).matches') := by
  have hlen := caseNorm_length flag text
  have hrange : (caseNorm flag text).length - ([] : List Char).length + 1 = text.length + 1 := by
    simp [hlen]
  refine ⟨⟨?_, ?_⟩, ?_, ?_, ?_⟩
  · rw [brute_force_matches_eq, caseNorm_nil, hrange]
    apply List.filter_eq_self.mpr
    intro i hi
    exact matchAtB_nil _ _
  · unfold brute_force_search
    rw [caseNorm_nil]
    rw [if_neg (by simp)]
    exact bf_fold_comparisons_nil (caseNorm flag text)
      ((caseNorm flag text).length - 0 + 1) [] 0
  · rw [rabin_karp_matches_eq text [] flag (by simp [caseNorm_nil]), caseNorm_nil, hrange]
    apply List.filter_congr
    intro i hi
    have hh0 : hornerHash ([] : List Char) = 0 := rfl
    rw [hh0, matchAtB_nil]
    simp
  · unfold rabin_karp_search
    rw [caseNorm_nil]
    rw [if_neg (by simp)]
    exact rk_fold_comparisons_nil (caseNorm flag text) (hornerHash [])
      (caseNorm flag text).length ((caseNorm flag text).length - 0 + 1) [] 0
      (hornerHash ((caseNorm flag text).take 0))
  · rw [rabin_karp_matches_eq text [] flag (by simp [caseNorm_nil]), caseNorm_nil]
    apply List.mem_filter.mpr
    constructor
    · apply List.mem_range.mpr
      omega
    · rw [matchAtB_nil]
      simp [rkHashAt, hornerHash]

/-! ### The rolling hash reproduces the from-scratch window hash (C6) -/

/-- The step-wise reduced Horner fold equals the plain Horner fold modulo
the prime, from congruent accumulators. -/
theorem horner_fold_mod (w : List Char) :
    ∀ a b : Int, a % 101 = b % 101 →
    (w.foldl (fun acc c => (256 * acc + ordc c) % 101) a) % 101 =
      (w.foldl (fun acc c => 256 * acc + ordc c) b) % 101 := by
  induction w with
  | nil => intro a b h; exact h
  | cons c w ih =>
    intro a b h
    simp only [List.foldl_cons]
    apply ih
    rw [Int.emod_emod_of_dvd _ (dvd_refl 101)]
    have : (256 * a + ordc c) % 101 = (256 * b + ordc c) % 101 := by
      have h256 : (256 * a) % 101 = (256 * b) % 101 := by
        rw [Int.mul_emod, h, ← Int.mul_emod]
      rw [Int.add_emod, h256, ← Int.add_emod]
    exact this

/-- hornerHash already lies in the canonical residue range. -/
theorem hornerHash_emod (w : List Char) : hornerHash w % 101 = hornerHash w := by
  unfold hornerHash
  have haux : ∀ a : Int, a % 101 = a →
      (w.foldl (fun acc c => (256 * acc + ordc c) % 101) a) % 101 =
        w.foldl (fun acc c => (256 * acc + ordc c) % 101) a := by
    induction w with
    | nil => intro a h; exact h
    | cons c w ih =>
      intro a h
      simp only [List.foldl_cons]
      exact ih _ (Int.emod_emod_of_dvd _ (dvd_refl 101))
  exact haux 0 rfl

/-- hornerHash is the plain Horner value reduced modulo the prime. -/
theorem hornerHash_eq_polyVal_mod (w : List Char) :
    hornerHash w = polyVal w % 101 := by
  rw [← hornerHash_emod w]
  exact horner_fold_mod w 0 0 rfl

/-- polyVal unfolded. -/
theorem polyVal_def (w : List Char) :
    polyVal w = w.foldl (fun acc c => 256 * acc + ordc c) 0 := rfl

/-- The plain Horner fold from an arbitrary accumulator. -/
theorem polyVal_foldl_shift (w : List Char) :
    ∀ a : Int, w.foldl (fun acc c => 256 * acc + ordc c) a =
      a * 256 ^ w.length + polyVal w := by
  induction w with
  | nil => intro a; simp [polyVal]
  | cons c w ih =>
    intro a
    simp only [List.foldl_cons, List.length_cons]
    rw [ih (256 * a + ordc c)]
    nth_rewrite 2 [polyVal_def]
    rw [List.foldl_cons, ih (256 * 0 + ordc c)]
    ring

/-- Peeling the first character off a Horner value. -/
theorem polyVal_cons (c : Char) (w : List Char) :
    polyVal (c :: w) = ordc c * 256 ^ w.length + polyVal w := by
  rw [polyVal_def, List.foldl_cons, polyVal_foldl_shift w (256 * 0 + ordc c)]
  ring

/-- Appending a character to a Horner value. -/
theorem polyVal_append (w : List Char) (c : Char) :
    polyVal (w ++ [c]) = 256 * polyVal w + ordc c := by
  unfold polyVal
  rw [List.foldl_append]
  simp

/-- rkH computes base^(m-1) reduced modulo the prime. -/
theorem rkH_eq (m : Nat) : rkH m = (256 : Int) ^ (m - 1) % 101 := by
  unfold rkH
  have haux : ∀ k : Nat, (List.range k).foldl (fun h _ => (h * 256) % 101) 1 =
      (256 : Int) ^ k % 101 := by
    intro k
    induction k with
    | zero => rfl
    | succ k ih =>
      rw [List.range_succ, List.foldl_append, ih]
      simp only [List.foldl_cons, List.foldl_nil]
      rw [Int.mul_emod, Int.emod_emod_of_dvd _ (dvd_refl 101), ← Int.mul_emod, pow_succ]
  exact haux (m - 1)

/-- The window starting at i, as the code sees it. -/
theorem window_cons (t : List Char) (i m : Nat) (hm : 0 < m)
    (hi : i + m ≤ t.length) :
    (t.drop i).take m = ch t i :: ((t.drop (i + 1)).take (m - 1)) := by
  have hilt : i < t.length := by omega
  rw [List.drop_eq_getElem_cons hilt]
  have hm' : m = (m - 1) + 1 := by omega
  rw [hm']
  simp only [List.take_succ_cons]
  congr 1
  rw [ch, List.getD_eq_getElem?_getD]
  simp [hilt]

/-- The next window appends the next character to the tail of the previous
window. -/
theorem window_snoc (t : List Char) (i m : Nat) (hm : 0 < m)
    (hi : i + m < t.length) :
    (t.drop (i + 1)).take m = ((t.drop (i + 1)).take (m - 1)) ++ [ch t (i + m)] := by
  have hm' : m = (m - 1) + 1 := by omega
  conv =>
    lhs
    rw [hm']
  rw [List.take_succ]
  congr 1
  rw [List.getElem?_drop]
  have hidx : i + 1 + (m - 1) = i + m := by omega
  rw [hidx]
  have him : i + m < t.length := hi
  rw [ch, List.getD_eq_getElem?_getD]
  simp [him]

/-- Window length. -/
theorem window_length (t : List Char) (i m : Nat) (hi : i + m ≤ t.length) :
    ((t.drop i).take m).length = m := by
  simp
  omega

/-- C6: for a pattern of length m with 0 < m ≤ len(text) and any window
position i, the rolling-hash value used by rabin_karp_search at position i
(maintained by the rkNext recurrence with base 256, prime 101 and the
negative-renormalisation branch) equals the Horner-rule hash of
text[i..i+m-1] computed from scratch modulo 101. -/
theorem rolling_hash_claim (t p : List Char) (i : Nat)
    (hm : 0 < p.length) (hmn : p.length ≤ t.length)
    (hi : i + p.length ≤ t.length) :
    rkHashAt t p.length i = hornerHash ((t.drop i).take p.length) := by
  set m := p.length with hmdef
  clear_value m
  clear hmdef hmn
  induction i with
  | zero =>
    simp [rkHashAt]
  | succ i ih =>
    have hi' : i + m ≤ t.length := by omega
    have hihash := ih hi'
    show rkNext t m i (rkHashAt t m i) = hornerHash ((t.drop (i + 1)).take m)
    rw [hihash]
    unfold rkNext
    have hwc := window_cons t i m hm hi'
    have hws := window_snoc t i m hm (by omega)
    -- the from-scratch value of the next window, via the shift identity
    have hnext : polyVal ((t.drop (i + 1)).take m) =
        256 * (polyVal ((t.drop i).take m) - ordc (ch t i) * 256 ^ (m - 1)) +
          ordc (ch t (i + m)) := by
      rw [hws, polyVal_append, hwc, polyVal_cons]
      have hlen : ((t.drop (i + 1)).take (m - 1)).length = m - 1 := by
        simp
        omega
      rw [hlen]
      ring
    rw [hornerHash_eq_polyVal_mod, hornerHash_eq_polyVal_mod, hnext]
    -- both sides are congruent modulo 101
    have hcong : (256 * (polyVal ((t.drop i).take m) % 101 -
          ordc (ch t i) * rkH m) + ordc (ch t (i + m))) % 101 =
        (256 * (polyVal ((t.drop i).take m) -
          ordc (ch t i) * 256 ^ (m - 1)) + ordc (ch t (i + m))) % 101 := by
      rw [rkH_eq]
      have hsub : (polyVal ((t.drop i).take m) % 101 -
            ordc (ch t i) * ((256 : Int) ^ (m - 1) % 101)) % 101 =
          (polyVal ((t.drop i).take m) -
            ordc (ch t i) * (256 : Int) ^ (m - 1)) % 101 := by
        rw [Int.sub_emod, Int.emod_emod_of_dvd _ (dvd_refl 101)]
        rw [Int.mul_emod (ordc (ch t i)), Int.emod_emod_of_dvd _ (dvd_refl 101)]
        rw [← Int.mul_emod, ← Int.sub_emod]
      rw [Int.add_emod, Int.mul_emod 256, hsub, ← Int.mul_emod, ← Int.add_emod]
    simp only
    rw [hcong]
    have hnonneg : 0 ≤ (256 * (polyVal ((t.drop i).take m) -
        ordc (ch t i) * 256 ^ (m - 1)) + ordc (ch t (i + m))) % 101 :=
      Int.emod_nonneg _ (by decide)
    rw [if_neg (by omega)]

/-- C6 witness: text "abc", pattern "ab", window position 1. -/
theorem rolling_hash_claim_witness :
    rkHashAt ['a', 'b', 'c'] 2 1 = hornerHash ((['a', 'b', 'c'].drop 1).take 2) :=
  rolling_hash_claim ['a', 'b', 'c'] ['a', 'b'] 1 (by decide) (by decide) (by decide)

/-! ### Borders: pointwise characterisation (towards C7 and C1) -/

/-- Indexing into a prefix. -/
theorem ch_take (w : List Char) (k d : Nat) (hd : d < k) :
    ch (w.take k) d = ch w d := by
  rw [ch, ch, List.getD_eq_getElem?_getD, List.getD_eq_getElem?_getD,
    List.getElem?_take, if_pos hd]

/-- Indexing into a suffix. -/
theorem ch_drop (w : List Char) (j d : Nat) : ch (w.drop j) d = ch w (j + d) := by
  rw [ch, ch, List.getD_eq_getElem?_getD, List.getD_eq_getElem?_getD,
    List.getElem?_drop]

/-- The border test, pointwise. -/
theorem borderB_iff (w : List Char) (k : Nat) (hk : k ≤ w.length) :
    borderB w k = true ↔ ∀ d, d < k → ch w d = ch w (w.length - k + d) := by
  rw [borderB, beq_iff_eq]
  constructor
  · intro h d hd
    have h1 : ch (w.take k) d = ch (w.drop (w.length - k)) d := by rw [h]
    rw [ch_take w k d hd, ch_drop w (w.length - k) d] at h1
    exact h1
  · intro h
    apply List.ext_getElem?
    intro d
    rw [List.getElem?_take, List.getElem?_drop]
    by_cases hd : d < k
    · rw [if_pos hd]
      have hdlt : d < w.length := by omega
      have hdlt2 : w.length - k + d < w.length := by omega
      rw [List.getElem?_eq_getElem hdlt, List.getElem?_eq_getElem hdlt2]
      have := h d hd
      rw [ch, ch, List.getD_eq_getElem?_getD, List.getD_eq_getElem?_getD,
        List.getElem?_eq_getElem hdlt, List.getElem?_eq_getElem hdlt2] at this
      simpa using this
    · rw [if_neg hd]
      symm
      apply List.getElem?_eq_none
      omega

/-- Borders of a prefix of p, pointwise on p itself. -/
theorem bordP_take_iff (p : List Char) (q k : Nat) (hk : k ≤ q) (hq : q ≤ p.length) :
    borderB (p.take q) k = true ↔ BordP p q k := by
  have hlen : (p.take q).length = q := by
    simp
    omega
  rw [borderB_iff (p.take q) k (by omega)]
  constructor
  · intro h d hd
    have := h d hd
    rw [hlen, ch_take p q d (by omega), ch_take p q _ (by omega)] at this
    exact this
  · intro h d hd
    rw [hlen, ch_take p q d (by omega), ch_take p q _ (by omega)]
    exact h d hd

/-- 0 is always a border length. -/
theorem border0 (w : List Char) : borderB w 0 = true := by
  rw [borderB, beq_iff_eq]
  simp

/-- maxBorder is a proper border length. -/
theorem maxBorder_le (w : List Char) : maxBorder w ≤ w.length - 1 := by
  unfold maxBorder
  exact Nat.findGreatest_le _

/-- Nat.findGreatest satisfies the predicate whenever 0 does. -/
theorem findGreatest_spec0 (P : Nat → Prop) [DecidablePred P] (n : Nat) (h0 : P 0) :
    P (Nat.findGreatest P n) := by
  have h := @Nat.findGreatest_spec 0 P _ n (Nat.zero_le n) h0
  exact h

/-- maxBorder is itself a border length. -/
theorem maxBorder_border (w : List Char) : borderB w (maxBorder w) = true := by
  unfold maxBorder
  exact findGreatest_spec0 (fun k => borderB w k = true) (w.length - 1) (border0 w)

/-- maxBorder dominates every proper border length. -/
theorem le_maxBorder (w : List Char) (k : Nat) (hk : k < w.length)
    (hb : borderB w k = true) : k ≤ maxBorder w := by
  unfold maxBorder
  exact Nat.le_findGreatest (by omega) hb

/-- maxBorder of the length-q prefix, as a proper border. -/
theorem MB_lt (p : List Char) (q : Nat) (hq1 : 1 ≤ q) (hq2 : q ≤ p.length) :
    maxBorder (p.take q) < q := by
  have hlen : (p.take q).length = q := by
    simp
    omega
  have := maxBorder_le (p.take q)
  omega

/-- maxBorder of the length-q prefix is a border, pointwise. -/
theorem MB_bordP (p : List Char) (q : Nat) (hq1 : 1 ≤ q) (hq2 : q ≤ p.length) :
    BordP p q (maxBorder (p.take q)) :=
  (bordP_take_iff p q _ (le_of_lt (MB_lt p q hq1 hq2)) hq2).mp (maxBorder_border _)

/-- Every pointwise border of the length-q prefix is at most its maxBorder. -/
theorem bordP_le_MB (p : List Char) (q k : Nat) (hq2 : q ≤ p.length) (hk : k < q)
    (h : BordP p q k) : k ≤ maxBorder (p.take q) := by
  have hlen : (p.take q).length = q := by
    simp
    omega
  apply le_maxBorder (p.take q) k (by omega)
  exact (bordP_take_iff p q k (le_of_lt hk) hq2).mpr h

/-- Transitivity: a border of a border-prefix is a border. -/
theorem bordP_trans (p : List Char) (i b a : Nat) (hab : a ≤ b) (hbi : b ≤ i)
    (h1 : BordP p i b) (h2 : BordP p b a) : BordP p i a := by
  intro d hd
  rw [h2 d hd]
  have h3 := h1 (b - a + d) (by omega)
  have hidx : i - b + (b - a + d) = i - a + d := by omega
  rw [hidx] at h3
  exact h3

/-- A shorter border of the same prefix is a border of the longer border. -/
theorem bordP_sub (p : List Char) (q b a : Nat) (hab : a ≤ b) (hbq : b ≤ q)
    (h1 : BordP p q b) (h2 : BordP p q a) : BordP p b a := by
  intro d hd
  rw [h2 d hd]
  have h3 := h1 (b - a + d) (by omega)
  have hidx : q - b + (b - a + d) = q - a + d := by omega
  rw [hidx] at h3
  exact h3.symm

/-- Extending a border by one matching character. -/
theorem bordP_ext (p : List Char) (q k : Nat) (hk : k ≤ q) :
    BordP p (q + 1) (k + 1) ↔ BordP p q k ∧ ch p k = ch p q := by
  constructor
  · intro h
    constructor
    · intro d hd
      have h1 := h d (by omega)
      have hidx : q + 1 - (k + 1) + d = q - k + d := by omega
      rw [hidx] at h1
      exact h1
    · have h1 := h k (by omega)
      have hidx : q + 1 - (k + 1) + k = q := by omega
      rw [hidx] at h1
      exact h1
  · rintro ⟨h1, h2⟩ d hd
    have hidx : q + 1 - (k + 1) + d = q - k + d := by omega
    rw [hidx]
    by_cases hdk : d < k
    · exact h1 d hdk
    · have hdk' : d = k := by omega
      subst hdk'
      have hidx2 : q - d + d = q := by omega
      rw [hidx2]
      exact h2

/-- The empty border. -/
theorem bordP_zero (p : List Char) (q : Nat) : BordP p q 0 :=
  fun d hd => absurd hd (by omega)


/-- getD after set at the written index. -/
theorem getD_set_self (l : List Nat) (i v : Nat) (h : i < l.length) :
    (l.set i v).getD i 0 = v := by
  rw [List.getD_eq_getElem?_getD, List.getElem?_set_self h]
  rfl

/-- getD after set at another index. -/
theorem getD_set_ne (l : List Nat) (i j v : Nat) (h : i ≠ j) :
    (l.set i v).getD j 0 = l.getD j 0 := by
  rw [List.getD_eq_getElem?_getD, List.getElem?_set_ne h, ← List.getD_eq_getElem?_getD]

/-- Main invariant of the _build_failure_function while loop: if the lps
entries below i are correct, length is a border of the length-i prefix of
the pattern, and every longer border of that prefix has been ruled out
against character i, then the loop extends the table with the longest
proper border lengths of all remaining prefixes. -/
theorem lpsFuel_correct (p : List Char) : ∀ (fuel len i : Nat) (lps : List Nat),
    1 ≤ i → i ≤ p.length → len < i →
    2 * (p.length - i) + len < fuel →
    BordP p i len →
    (∀ k, len < k → k < i → BordP p i k → ch p k ≠ ch p i) →
    lps.length = p.length →
    (∀ q, q < i → lps.getD q 0 = maxBorder (p.take (q + 1))) →
    (lpsFuel p fuel lps len i).length = p.length ∧
    (∀ q, q < p.length → (lpsFuel p fuel lps len i).getD q 0 =
      maxBorder (p.take (q + 1))) := by
  intro fuel
  induction fuel with
  | zero =>
    intro len i lps h1 h2 h3 hfuel
    exact absurd hfuel (by omega)
  | succ fuel ih =>
    intro len i lps h1 h2 h3 hfuel hbord hruled hlpslen hlpsok
    by_cases him : i < p.length
    · simp only [lpsFuel]
      rw [if_pos him]
      by_cases heq : ch p i = ch p len
      · rw [if_pos heq]
        have hmb : maxBorder (p.take (i + 1)) = len + 1 := by
          have hub : maxBorder (p.take (i + 1)) ≤ len + 1 := by
            by_contra hc
            push_neg at hc
            have hmblt := MB_lt p (i + 1) (by omega) (by omega)
            have hmbb := MB_bordP p (i + 1) (by omega) (by omega)
            rcases Nat.exists_eq_succ_of_ne_zero
              (by omega : maxBorder (p.take (i + 1)) ≠ 0) with ⟨k, hk⟩
            rw [hk] at hmbb hmblt hc
            have hkb := (bordP_ext p i k (by omega)).mp hmbb
            exact hruled k (by omega) (by omega) hkb.1 hkb.2
          have hlb : len + 1 ≤ maxBorder (p.take (i + 1)) := by
            apply bordP_le_MB p (i + 1) (len + 1) (by omega) (by omega)
            exact (bordP_ext p i len (by omega)).mpr ⟨hbord, heq.symm⟩
          omega
        apply ih (len + 1) (i + 1) (lps.set i (len + 1)) (by omega) (by omega)
          (by omega) (by omega)
        · exact (bordP_ext p i len (by omega)).mpr ⟨hbord, heq.symm⟩
        · intro k hk1 hk2 hkb
          exfalso
          have := bordP_le_MB p (i + 1) k (by omega) (by omega) hkb
          omega
        · simpa using hlpslen
        · intro q hq
          by_cases hqi : q = i
          · subst hqi
            rw [getD_set_self lps q (len + 1) (by omega), hmb]
          · rw [getD_set_ne lps i q (len + 1) (fun hc => hqi hc.symm)]
            exact hlpsok q (by omega)
      · rw [if_neg heq]
        by_cases hlen0 : len = 0
        · rw [if_neg (fun hc => hc hlen0)]
          have hmb0 : maxBorder (p.take (i + 1)) = 0 := by
            by_contra hc
            have hmblt := MB_lt p (i + 1) (by omega) (by omega)
            have hmbb := MB_bordP p (i + 1) (by omega) (by omega)
            rcases Nat.exists_eq_succ_of_ne_zero hc with ⟨k, hk⟩
            rw [hk] at hmbb hmblt
            have hkb := (bordP_ext p i k (by omega)).mp hmbb
            by_cases hk0 : k = 0
            · subst hk0
              rw [hlen0] at heq
              exact heq hkb.2.symm
            · exact hruled k (by omega) (by omega) hkb.1 hkb.2
          apply ih len (i + 1) (lps.set i 0) (by omega) (by omega) (by omega)
            (by omega)
          · rw [hlen0]
            exact bordP_zero p (i + 1)
          · intro k hk1 hk2 hkb
            exfalso
            have := bordP_le_MB p (i + 1) k (by omega) (by omega) hkb
            omega
          · simpa using hlpslen
          · intro q hq
            by_cases hqi : q = i
            · subst hqi
              rw [getD_set_self lps q 0 (by omega), hmb0]
            · rw [getD_set_ne lps i q 0 (fun hc => hqi hc.symm)]
              exact hlpsok q (by omega)
        · rw [if_pos hlen0]
          have hstep : len - 1 + 1 = len := by omega
          have hlen' : lps.getD (len - 1) 0 = maxBorder (p.take len) := by
            rw [hlpsok (len - 1) (by omega), hstep]
          rw [hlen']
          have hq1 : 1 ≤ len := by omega
          have hq2 : len ≤ p.length := by omega
          have hlen'lt : maxBorder (p.take len) < len := MB_lt p len hq1 hq2
          apply ih (maxBorder (p.take len)) i lps h1 h2 (by omega) (by omega)
          · exact bordP_trans p i len (maxBorder (p.take len)) (le_of_lt hlen'lt)
              (le_of_lt h3) hbord (MB_bordP p len hq1 hq2)
          · intro k hk1 hk2 hkb
            by_cases hklen : len < k
            · exact hruled k hklen hk2 hkb
            · by_cases hkeq : k = len
              · subst hkeq
                intro hc
                exact heq hc.symm
              · exfalso
                have hsub := bordP_sub p i len k (by omega) (le_of_lt h3) hbord hkb
                have := bordP_le_MB p len k hq2 (by omega) hsub
                omega
          · exact hlpslen
          · exact hlpsok
    · have hieq : i = p.length := by omega
      simp only [lpsFuel]
      rw [if_neg him]
      subst hieq
      exact ⟨hlpslen, fun q hq => hlpsok q hq⟩

/-- _build_failure_function computes the longest-proper-border lengths of
all prefixes of the pattern. -/
theorem build_failure_function_correct (p : List Char) :
    (build_failure_function p).length = p.length ∧
    ∀ q, q < p.length →
      (build_failure_function p).getD q 0 = maxBorder (p.take (q + 1)) := by
  rcases Nat.eq_zero_or_pos p.length with h0 | hpos
  · constructor
    · simp [build_failure_function, lpsFuel, h0, List.replicate]
    · intro q hq
      omega
  · unfold build_failure_function
    apply lpsFuel_correct p (2 * p.length + 1) 0 1 (List.replicate p.length 0)
      (le_refl 1) hpos (by omega) (by omega) (bordP_zero p 1)
    · intro k hk1 hk2
      exact absurd hk2 (by omega)
    · simp
    · intro q hq
      have hq0 : q = 0 := by omega
      subst hq0
      have hrep : (List.replicate p.length 0).getD 0 0 = 0 := by
        rw [List.getD_eq_getElem?_getD, List.getElem?_replicate]
        simp [hpos]
      rw [hrep]
      have htk : (p.take 1).length = 1 := by
        simp
        omega
      unfold maxBorder
      rw [htk]
      rfl

/-- C7: _build_failure_function returns an array of length len(pattern)
whose entry q is the length of the longest proper prefix of
pattern[0..q] that is also a suffix of pattern[0..q]; for the pattern
"aabaabaaa" it returns [0,1,0,1,2,3,4,5,2]. -/
theorem failure_function_claim (p : List Char) :
    ((build_failure_function p).length = p.length ∧
      ∀ q, q < p.length →
        borderB (p.take (q + 1)) ((build_failure_function p).getD q 0) = true ∧
        (build_failure_function p).getD q 0 < q + 1 ∧
        ∀ k, k < q + 1 → borderB (p.take (q + 1)) k = true →
          k ≤ (build_failure_function p).getD q 0) ∧
    build_failure_function ['a', 'a', 'b', 'a', 'a', 'b', 'a', 'a', 'a'] =
      [0, 1, 0, 1, 2, 3, 4, 5, 2] := by
  obtain ⟨hlen, hok⟩ := build_failure_function_correct p
  refine ⟨⟨hlen, ?_⟩, by decide⟩
  intro q hq
  rw [hok q hq]
  refine ⟨maxBorder_border _, MB_lt p (q + 1) (by omega) (by omega), ?_⟩
  intro k hk hb
  apply le_maxBorder (p.take (q + 1)) k ?_ hb
  have htk : (p.take (q + 1)).length = q + 1 := by
    simp
    omega
  omega

/-- C7 witness: for "aabaabaaa" the last entry is a proper border length of
the whole pattern. -/
theorem failure_function_claim_witness :
    (build_failure_function ['a', 'a', 'b', 'a', 'a', 'b', 'a', 'a', 'a']).getD 8 0 < 9 ∧
    borderB (['a', 'a', 'b', 'a', 'a', 'b', 'a', 'a', 'a'].take 9)
      ((build_failure_function ['a', 'a', 'b', 'a', 'a', 'b', 'a', 'a', 'a']).getD 8 0) =
      true :=
  have h := (failure_function_claim
    ['a', 'a', 'b', 'a', 'a', 'b', 'a', 'a', 'a']).1.2 8 (by decide)
  ⟨h.2.1, h.1⟩

/-! ### KMP search loop (towards C1) -/

/-- Occurrence of the pattern, pointwise. -/
theorem matchAtB_iff (t p : List Char) (s : Nat) (hm : 1 ≤ p.length) :
    matchAtB t p s = true ↔
      s + p.length ≤ t.length ∧ ∀ d, d < p.length → ch t (s + d) = ch p d := by
  rw [matchAtB, beq_iff_eq]
  constructor
  · intro h
    have hlen := congrArg List.length h
    simp only [List.length_take, List.length_drop] at hlen
    constructor
    · omega
    · intro d hd
      have h1 : ch ((t.drop s).take p.length) d = ch p d := by rw [h]
      rw [ch_take _ _ _ hd, ch_drop] at h1
      exact h1
  · rintro ⟨hs, h⟩
    apply List.ext_getElem?
    intro d
    rw [List.getElem?_take, List.getElem?_drop]
    by_cases hd : d < p.length
    · rw [if_pos hd]
      have h1 : s + d < t.length := by omega
      rw [List.getElem?_eq_getElem h1, List.getElem?_eq_getElem hd]
      have h2 := h d hd
      rw [ch, ch, List.getD_eq_getElem?_getD, List.getD_eq_getElem?_getD,
        List.getElem?_eq_getElem h1, List.getElem?_eq_getElem hd] at h2
      simpa using h2
    · rw [if_neg hd]
      symm
      apply List.getElem?_eq_none
      omega

/-- Advancing the text pointer adds no match when the window ending at the
new pointer does not match. -/
theorem filter_range_no_new (P : Nat → Bool) (i m : Nat) (hm : 1 ≤ m)
    (hP : m ≤ i + 1 → P (i + 1 - m) = false) :
    (List.range (i + 2 - m)).filter P = (List.range (i + 1 - m)).filter P := by
  by_cases hge : m ≤ i + 1
  · have h2 : i + 2 - m = (i + 1 - m) + 1 := by omega
    rw [h2, List.range_succ, List.filter_append, List.filter_singleton, hP hge]
    simp
  · have h2 : i + 2 - m = 0 := by omega
    have h3 : i + 1 - m = 0 := by omega
    rw [h2, h3]

/-- Advancing the text pointer adds exactly the match ending at the new
pointer when that window matches. -/
theorem filter_range_new (P : Nat → Bool) (i m : Nat) (hge : m ≤ i + 1)
    (hP : P (i + 1 - m) = true) :
    (List.range (i + 2 - m)).filter P =
      (List.range (i + 1 - m)).filter P ++ [i + 1 - m] := by
  have h2 : i + 2 - m = (i + 1 - m) + 1 := by omega
  rw [h2, List.range_succ, List.filter_append, List.filter_singleton, hP]
  rfl

/-- Main invariant of the kmp_search while loop: the text prefix of length
i ends in the length-j prefix of the pattern, no occurrence starting before
i - j is still open, and ms holds every occurrence ending by i; then the
loop returns every occurrence of the pattern. -/
theorem kmpLoop_correct (t p : List Char) (lps : List Nat)
    (hm : 1 ≤ p.length)
    (hlps : ∀ q, q < p.length → lps.getD q 0 = maxBorder (p.take (q + 1))) :
    ∀ (fuel i j : Nat) (ms : List Nat) (cs : Nat),
    2 * (t.length - i) + j < fuel →
    j < p.length → j ≤ i → i ≤ t.length →
    (∀ d, d < j → ch t (i - j + d) = ch p d) →
    (∀ s, s < i - j → i < s + p.length → matchAtB t p s = false) →
    ms = (List.range (i + 1 - p.length)).filter (fun s => matchAtB t p s) →
    (kmpLoop t p lps fuel i j ms cs).1 =
      (List.range (t.length + 1 - p.length)).filter (fun s => matchAtB t p s) := by
  intro fuel
  induction fuel with
  | zero =>
    intro i j ms cs hfuel
    exact absurd hfuel (by omega)
  | succ fuel ih =>
    intro i j ms cs hfuel hjm hji hin hpartial hnomiss hms
    by_cases hi : i < t.length
    · simp only [kmpLoop]
      rw [if_pos hi]
      by_cases heq : ch t i = ch p j
      · rw [if_pos heq]
        dsimp only
        have hpartial' : ∀ d, d < j + 1 → ch t (i + 1 - (j + 1) + d) = ch p d := by
          intro d hd
          have hidx : i + 1 - (j + 1) + d = i - j + d := by omega
          rw [hidx]
          by_cases hdj : d < j
          · exact hpartial d hdj
          · have hdj' : d = j := by omega
            subst hdj'
            have hij : i - d + d = i := by omega
            rw [hij]
            exact heq
        by_cases hjm1 : j + 1 = p.length
        · rw [if_pos hjm1]
          have hsimp : j + 1 - 1 = j := by omega
          rw [hsimp, hlps j hjm]
          have hmblt : maxBorder (p.take (j + 1)) < j + 1 :=
            MB_lt p (j + 1) (by omega) (by omega)
          have hmbb : BordP p (j + 1) (maxBorder (p.take (j + 1))) :=
            MB_bordP p (j + 1) (by omega) (by omega)
          have hmatch : matchAtB t p (i + 1 - p.length) = true := by
            rw [matchAtB_iff t p _ hm]
            constructor
            · omega
            · intro d hd
              have hidx : i + 1 - p.length + d = i + 1 - (j + 1) + d := by omega
              rw [hidx]
              exact hpartial' d (by omega)
          apply ih (i + 1) (maxBorder (p.take (j + 1)))
            (ms ++ [i + 1 - (j + 1)]) (cs + 1) (by omega) (by omega) (by omega)
            (by omega)
          · -- partial match for the fallback border
            intro d hd
            have hidx : i + 1 - maxBorder (p.take (j + 1)) + d =
                i + 1 - (j + 1) + (j + 1 - maxBorder (p.take (j + 1)) + d) := by omega
            rw [hidx, hpartial' _ (by omega)]
            exact (hmbb d hd).symm
          · -- no occurrence starting before the fallback window is open
            intro s hs hopen
            by_contra hc
            rw [Bool.not_eq_false, matchAtB_iff t p s hm] at hc
            have hkb : BordP p (j + 1) (i + 1 - s) := by
              intro d hd
              have h1 := hc.2 d (by omega)
              have hidx : s + d = i + 1 - (j + 1) + (j + 1 - (i + 1 - s) + d) := by omega
              rw [hidx] at h1
              rw [← h1, hpartial' _ (by omega)]
            have := bordP_le_MB p (j + 1) (i + 1 - s) (by omega) (by omega) hkb
            omega
          · -- the new match is recorded
            rw [hms]
            have hidx : i + 1 - (j + 1) = i + 1 - p.length := by omega
            rw [hidx]
            have hgoal := filter_range_new (fun s => matchAtB t p s) i p.length
              (by omega) hmatch
            rw [← hgoal]
        · rw [if_neg hjm1]
          have hjm' : j + 1 < p.length := by omega
          have hmsnew : ms =
              (List.range (i + 1 + 1 - p.length)).filter (fun s => matchAtB t p s) := by
            rw [hms]
            have := filter_range_no_new (fun s => matchAtB t p s) i p.length hm
              (fun hge => hnomiss (i + 1 - p.length) (by omega) (by omega))
            rw [← this]
          by_cases hcond : i + 1 < t.length ∧ ch t (i + 1) ≠ ch p (j + 1)
          · rw [if_pos hcond]
            rw [if_pos (show ¬ j + 1 = 0 by omega)]
            have hsimp : j + 1 - 1 = j := by omega
            rw [hsimp, hlps j hjm]
            have hmblt : maxBorder (p.take (j + 1)) < j + 1 :=
              MB_lt p (j + 1) (by omega) (by omega)
            have hmbb : BordP p (j + 1) (maxBorder (p.take (j + 1))) :=
              MB_bordP p (j + 1) (by omega) (by omega)
            apply ih (i + 1) (maxBorder (p.take (j + 1))) ms (cs + 1 + 1)
              (by omega) (by omega) (by omega) (by omega)
            · intro d hd
              have hidx : i + 1 - maxBorder (p.take (j + 1)) + d =
                  i + 1 - (j + 1) + (j + 1 - maxBorder (p.take (j + 1)) + d) := by omega
              rw [hidx, hpartial' _ (by omega)]
              exact (hmbb d hd).symm
            · intro s hs hopen
              by_cases hsold : s < i - j
              · exact hnomiss s hsold (by omega)
              · by_cases hseq : s = i - j
                · subst hseq
                  by_contra hc
                  rw [Bool.not_eq_false, matchAtB_iff t p _ hm] at hc
                  have h1 := hc.2 (j + 1) (by omega)
                  have hidx : i - j + (j + 1) = i + 1 := by omega
                  rw [hidx] at h1
                  exact hcond.2 h1
                · by_contra hc
                  rw [Bool.not_eq_false, matchAtB_iff t p s hm] at hc
                  have hkb : BordP p (j + 1) (i + 1 - s) := by
                    intro d hd
                    have h1 := hc.2 d (by omega)
                    have hidx : s + d = i + 1 - (j + 1) + (j + 1 - (i + 1 - s) + d) := by
                      omega
                    rw [hidx] at h1
                    rw [← h1, hpartial' _ (by omega)]
                  have := bordP_le_MB p (j + 1) (i + 1 - s) (by omega) (by omega) hkb
                  omega
            · exact hmsnew
          · rw [if_neg hcond]
            apply ih (i + 1) (j + 1) ms (cs + 1) (by omega) (by omega) (by omega)
              (by omega) hpartial'
            · intro s hs hopen
              exact hnomiss s (by omega) (by omega)
            · exact hmsnew
      · rw [if_neg heq]
        dsimp only
        rw [if_neg (show ¬ j = p.length by omega)]
        rw [if_pos (show i < t.length ∧ ch t i ≠ ch p j from ⟨hi, heq⟩)]
        by_cases hj0 : j = 0
        · rw [if_neg (fun hc => hc hj0)]
          apply ih (i + 1) j ms (cs + 1) (by omega) (by omega) (by omega) (by omega)
          · intro d hd
            exact absurd hd (by omega)
          · intro s hs hopen
            by_cases hsold : s < i
            · exact hnomiss s (by omega) (by omega)
            · have hseq : s = i := by omega
              subst hseq
              by_contra hc
              rw [Bool.not_eq_false, matchAtB_iff t p s hm] at hc
              have h1 := hc.2 0 (by omega)
              rw [Nat.add_zero] at h1
              rw [hj0] at heq
              exact heq h1
          · rw [hms]
            have hnonew : p.length ≤ i + 1 → matchAtB t p (i + 1 - p.length) = false := by
              intro hge
              by_cases hm2 : 2 ≤ p.length
              · exact hnomiss (i + 1 - p.length) (by omega) (by omega)
              · have hm1 : p.length = 1 := by omega
                by_contra hc
                rw [Bool.not_eq_false, matchAtB_iff t p _ hm] at hc
                have h1 := hc.2 0 (by omega)
                rw [Nat.add_zero] at h1
                have hidx : i + 1 - p.length = i := by omega
                rw [hidx] at h1
                rw [hj0] at heq
                exact heq h1
            have := filter_range_no_new (fun s => matchAtB t p s) i p.length hm hnonew
            rw [← this]
        · rw [if_pos hj0]
          have hsimp : j - 1 + 1 = j := by omega
          rw [hlps (j - 1) (by omega), hsimp]
          have hmblt : maxBorder (p.take j) < j := MB_lt p j (by omega) (by omega)
          have hmbb : BordP p j (maxBorder (p.take j)) := MB_bordP p j (by omega) (by omega)
          apply ih i (maxBorder (p.take j)) ms (cs + 1) (by omega) (by omega)
            (by omega) (by omega)
          · intro d hd
            have hidx : i - maxBorder (p.take j) + d =
                i - j + (j - maxBorder (p.take j) + d) := by omega
            rw [hidx, hpartial _ (by omega)]
            exact (hmbb d hd).symm
          · intro s hs hopen
            by_cases hsold : s < i - j
            · exact hnomiss s hsold hopen
            · by_cases hseq : s = i - j
              · subst hseq
                by_contra hc
                rw [Bool.not_eq_false, matchAtB_iff t p _ hm] at hc
                have h1 := hc.2 j (by omega)
                have hidx : i - j + j = i := by omega
                rw [hidx] at h1
                exact heq h1
              · by_contra hc
                rw [Bool.not_eq_false, matchAtB_iff t p s hm] at hc
                have hkb : BordP p j (i - s) := by
                  intro d hd
                  have h1 := hc.2 d (by omega)
                  have hidx : s + d = i - j + (j - (i - s) + d) := by omega
                  rw [hidx] at h1
                  rw [← h1, hpartial _ (by omega)]
                have := bordP_le_MB p j (i - s) (by omega) (by omega) hkb
                omega
          · exact hms
    · have hieq : i = t.length := by omega
      simp only [kmpLoop]
      rw [if_neg hi]
      subst hieq
      exact hms

/-- For a non-empty pattern the KMP match list is exactly the list of
positions where the pattern occurs. -/
theorem kmp_matches_eq (text pat : List Char) (flag : Bool)
    (hp : 1 ≤ (caseNorm flag pat).length) :
    (kmp_search text pat flag).matches' =
      (List.range ((caseNorm flag text).length + 1 - (caseNorm flag pat).length)).filter
        (fun s => matchAtB (caseNorm flag text) (caseNorm flag pat) s) := by
  unfold kmp_search
  set t := caseNorm flag text
  set p := caseNorm flag pat
  by_cases hmn : p.length > t.length
  · rw [if_pos hmn]
    have h0 : t.length + 1 - p.length = 0 := by omega
    rw [h0]
    rfl
  · rw [if_neg hmn]
    obtain ⟨-, hlps⟩ := build_failure_function_correct p
    have h0 : (0 : Nat) + 1 - p.length = 0 := by omega
    exact kmpLoop_correct t p (build_failure_function p) hp hlps (2 * t.length + 1)
      0 0 [] 0 (by omega) (by omega) (le_refl 0) (by omega)
      (fun d hd => absurd hd (by omega))
      (fun s hs _ => absurd hs (by omega))
      (by rw [h0]; rfl)

/-- At an in-range window the hash-and-verify test of Rabin-Karp is
equivalent to the plain occurrence test: a true occurrence always passes the
hash comparison. -/
theorem rk_cond_eq_match (t p : List Char) (i : Nat) (hm : 1 ≤ p.length)
    (hi : i + p.length ≤ t.length) :
    (hornerHash p == rkHashAt t p.length i && matchAtB t p i) = matchAtB t p i := by
  rcases hmB : matchAtB t p i with _ | _
  · simp
  · have hwin : (t.drop i).take p.length = p := by
      rw [matchAtB] at hmB
      exact beq_iff_eq.mp hmB
    have hhash : rkHashAt t p.length i = hornerHash p := by
      rw [rolling_hash_claim t p i hm (by omega) hi, hwin]
    simp [hhash]

/-- C1 counterexample: on empty text with the empty pattern, Brute Force
reports the match list [0] while KMP reports [], so the three algorithms do
not return identical match sets for every text and pattern. -/
theorem algorithms_agree_counterexample :
    (brute_force_search [] [] false).matches' = [0] ∧
    (kmp_search [] [] false).matches' = [] ∧
    (brute_force_search [] [] false).matches' ≠ (kmp_search [] [] false).matches' :=
  ⟨by decide, by decide, by decide⟩

/-- C1 amended: for every text, every non-empty pattern and both values of
the case-sensitive flag, brute_force_search, rabin_karp_search and
kmp_search return the same list of match start positions (for the empty
pattern the three can disagree). -/
theorem algorithms_agree_claim (text pat : List Char) (flag : Bool) (hp : pat ≠ []) :
    (brute_force_search text pat flag).matches' =
      (rabin_karp_search text pat flag).matches' ∧
    (brute_force_search text pat flag).matches' =
      (kmp_search text pat flag).matches' := by
  have hplen : 1 ≤ (caseNorm flag pat).length := by
    rw [caseNorm_length]
    have := List.length_pos.mpr hp
    omega
  by_cases hmn : (caseNorm flag pat).length ≤ (caseNorm flag text).length
  · constructor
    · rw [brute_force_matches_eq, rabin_karp_matches_eq text pat flag hmn]
      symm
      apply List.filter_congr
      intro i hi
      have hi' : i + (caseNorm flag pat).length ≤ (caseNorm flag text).length := by
        have := List.mem_range.mp hi
        omega
      exact rk_cond_eq_match (caseNorm flag text) (caseNorm flag pat) i hplen hi'
    · rw [brute_force_matches_eq, kmp_matches_eq text pat flag hplen]
      have hidx : (caseNorm flag text).length - (caseNorm flag pat).length + 1 =
          (caseNorm flag text).length + 1 - (caseNorm flag pat).length := by omega
      rw [hidx]
  · push_neg at hmn
    have hbf : (brute_force_search text pat flag).matches' = [] := by
      unfold brute_force_search
      rw [if_pos (by omega)]
    have hrk : (rabin_karp_search text pat flag).matches' = [] := by
      unfold rabin_karp_search
      rw [if_pos (by omega)]
    have hkmp : (kmp_search text pat flag).matches' = [] := by
      unfold kmp_search
      rw [if_pos (by omega)]
    rw [hbf, hrk, hkmp]
    exact ⟨rfl, rfl⟩

/-- C1 witness: on text "aba" with pattern "a" the three algorithms return
the same match list. -/
theorem algorithms_agree_claim_witness :
    (brute_force_search ['a', 'b', 'a'] ['a'] false).matches' =
      (rabin_karp_search ['a', 'b', 'a'] ['a'] false).matches' ∧
    (brute_force_search ['a', 'b', 'a'] ['a'] false).matches' =
      (kmp_search ['a', 'b', 'a'] ['a'] false).matches' :=
  algorithms_agree_claim ['a', 'b', 'a'] ['a'] false (by decide)

end CVA
